import Mathlib

/-!
Shallow embedding of the kdtree Go library (package kdtree: tree.go,
nodelist.go, and the search file with Find/FindRange) and proofs about it.

Modelling conventions:
* float64 coordinates are used by the code only through `<`, `>`, `>=`, `==`
  comparisons, so (NaN-free) coordinates are modelled by `Int`, a decidable
  linear order with bit-exact equality.
* Pointer identity of `*Node` is modelled by a node id `nid : Nat`; the
  `parent` and `tree` pointer fields become `Option Nat` holding the id of
  the referenced node or tree (`none` = Go `nil`).
* The nil pointer to a subtree is the constructor `KD.nil`.
* A Go method that would dereference a nil pointer is modelled as returning
  a distinguished "panics" value.
* `sort.Sort` on `sortableNodeList` is modelled as a stable sort by the axis
  key (Go uses insertion sort - stable - for the short slices appearing in
  our concrete inputs; for lists with pairwise distinct keys, which all
  general theorems assume, every comparison sort produces the same list).
-/

namespace Kdtree

/-- Coordinates (float64 in the source, used only via order/equality). -/
abbrev Coord := Int

/-- The scalar fields of a Go `Node` (core file): id (pointer identity),
`axis`, `Coordinates`, `parent` pointer and owning `tree` pointer. -/
structure NodeData where
  nid : Nat
  axis : Nat
  coords : List Coord
  parent : Option Nat
  tree : Option Nat
deriving Repr, DecidableEq

instance : Inhabited NodeData := ⟨⟨0, 0, [], none, none⟩⟩

/-- A `*Node` subtree pointer: nil, or a node with left and right children. -/
inductive KD where
  | nil : KD
  | node (d : NodeData) (l r : KD) : KD
deriving Repr, DecidableEq

/-- The `Tree` object (tree.go): a tree identity (pointer) and `Root`. -/
structure GoTree where
  tid : Nat
  root : KD
deriving Repr, DecidableEq

/-- Node list of a subtree, in the order produced by `traverse`
(left-first depth-first post-order) as used by `nodeList` (nodelist.go). -/
def KD.nodeList : KD → List NodeData
  | .nil => []
  | .node d l r => l.nodeList ++ r.nodeList ++ [d]

/-- `(*Node).size` (tree.go): length of the node list. -/
def KD.size (t : KD) : Nat := t.nodeList.length

/-- `(*Node).depth` (tree.go). -/
def KD.depth : KD → Nat
  | .nil => 0
  | .node _ l r => max (l.depth + 1) (r.depth + 1)

/-- Coordinate of a node record on an axis (`d.Coordinates[ax]`; the index is
in range whenever the dimensional invariants hold - Go panics otherwise). -/
def axisKey (ax : Nat) (d : NodeData) : Coord := d.coords.getD ax 0

/-- The data record at the top of a subtree, if non-nil. -/
def KD.topData : KD → Option NodeData
  | .nil => none
  | .node d _ _ => some d

/-- The `equal` / `equal_fl` helper (search file): element-wise float64
equality after a length check. -/
def equal_fl (a b : List Coord) : Bool :=
  if a.length ≠ b.length then false
  else (List.range a.length).all fun i => a.getD i 0 == b.getD i 0

/-- Result of `(*Tree).Find` / `(*Node).find`: Go returns `(*Node, error)`;
`panics` models the nil-root dereference (`(*Node).find` reads
`n.Coordinates` without a nil guard). -/
inductive FindRes where
  | panics
  | dimErr
  | found (d : NodeData)
  | absent
deriving Repr, DecidableEq

/-- `(*Node).find` (search file, lines 34-57). -/
def KD.find : KD → List Coord → FindRes
  | .nil, _ => .panics
  | .node d l r, coords =>
    if coords.length ≠ d.coords.length then .dimErr
    else if coords.getD d.axis 0 < d.coords.getD d.axis 0 then
      match l with
      | .nil => .absent
      | lc => lc.find coords
    else if coords.getD d.axis 0 == d.coords.getD d.axis 0 && equal_fl coords d.coords then
      .found d
    else
      match r with
      | .nil => .absent
      | rc => rc.find coords

/-- `(*Tree).Find` (search file, lines 26-30): delegates to `Root.find`,
with no nil-root guard. -/
def GoTree.find (t : GoTree) (coords : List Coord) : FindRes :=
  t.root.find coords

/-- The `Range` search parameter (search file). -/
structure Range where
  min : Coord
  max : Coord
deriving Repr, DecidableEq

/-- The two recoverable errors of the range searches. -/
inductive RangeErr where
  | axisTooBig
  | axisNegative
deriving Repr, DecidableEq

/-- A `map[int]Range` in its iteration order: association list with `Int`
keys. Go randomizes map iteration order; the list fixes one order. -/
abbrev Ranges := List (Int × Range)

/-- The per-node restriction loop of `(*Node).findRange`: for each map entry
check the axis is in range (else error), then the coordinate against the
interval; a violated interval sets `add = false` and BREAKS (later entries
are not examined). -/
def checkRanges (d : NodeData) : Ranges → Except RangeErr Bool
  | [] => .ok true
  | (a, r) :: rest =>
    if (d.coords.length : Int) ≤ a then .error .axisTooBig
    else if a < 0 then .error .axisNegative
    else if d.coords.getD a.toNat 0 < r.min || d.coords.getD a.toNat 0 > r.max then
      .ok false
    else checkRanges d rest

/-- The per-node restriction loop of `(*sortableNodeList).findrange`
(nodelist.go 65-87): same checks but WITHOUT the break, so an invalid axis
key is detected even after a violated interval. -/
def checkRangesAll (d : NodeData) : Ranges → Except RangeErr Bool
  | [] => .ok true
  | (a, r) :: rest =>
    if (d.coords.length : Int) ≤ a then .error .axisTooBig
    else if a < 0 then .error .axisNegative
    else
      match checkRangesAll d rest with
      | .error e => .error e
      | .ok b =>
        .ok (!(d.coords.getD a.toNat 0 < r.min || d.coords.getD a.toNat 0 > r.max) && b)

/-- `(*sortableNodeList).findrange` (nodelist.go 65-87): linear scan used as
the reference implementation in the unit tests. On the first error Go
returns `(nil, err)`. -/
def findrangeList (nodes : List NodeData) (ranges : Ranges) : List NodeData × Option RangeErr :=
  match nodes with
  | [] => ([], none)
  | n :: rest =>
    match checkRangesAll n ranges with
    | .error e => ([], some e)
    | .ok add =>
      match findrangeList rest ranges with
      | (_, some e) => ([], some e)
      | (res, none) => ((if add then [n] else []) ++ res, none)

/-- The left-descent test of `(*Node).findRange`: descend iff the node's
axis is unrestricted or the restriction's min is strictly below the node's
coordinate on that axis. -/
def goLeft (d : NodeData) (ranges : Ranges) : Bool :=
  match ranges.lookup (d.axis : Int) with
  | none => true
  | some rg => decide (rg.min < d.coords.getD d.axis 0)

/-- The right-descent test of `(*Node).findRange`: descend iff the node's
axis is unrestricted or the restriction's max is at least the node's
coordinate on that axis. -/
def goRight (d : NodeData) (ranges : Ranges) : Bool :=
  match ranges.lookup (d.axis : Int) with
  | none => true
  | some rg => decide (rg.max ≥ d.coords.getD d.axis 0)

/-- `(*Node).findRange` (search file, lines 91-135). Includes the node if
all restrictions pass, then descends left iff the node axis is unrestricted
or `min < coords[axis]`, and right iff unrestricted or `max >= coords[axis]`;
an error from a subtree is returned together with the results collected so
far. -/
def KD.findRange : KD → Ranges → List NodeData × Option RangeErr
  | .nil, _ => ([], none)
  | .node d l r, ranges =>
    match checkRanges d ranges with
    | .error e => ([], some e)
    | .ok add =>
      let res0 : List NodeData := if add then [d] else []
      let goL : Bool := goLeft d ranges
      let goR : Bool := goRight d ranges
      if goL then
        match l.findRange ranges with
        | (_, some e) => (res0, some e)
        | (lres, none) =>
          if goR then
            match r.findRange ranges with
            | (_, some e) => (res0 ++ lres, some e)
            | (rres, none) => (res0 ++ lres ++ rres, none)
          else (res0 ++ lres, none)
      else
        if goR then
          match r.findRange ranges with
          | (_, some e) => (res0, some e)
          | (rres, none) => (res0 ++ rres, none)
        else (res0, none)

/-- `(*Tree).FindRange` (search file, lines 79-83): delegates to the root;
`(*Node).findRange` itself guards against a nil receiver. -/
def GoTree.findRange (t : GoTree) (ranges : Ranges) : List NodeData × Option RangeErr :=
  t.root.findRange ranges

/-- Left-subtree coordinate check of `(*Node).validate`: every node of the
left subtree is strictly smaller on the node's axis (an empty subtree is
skipped by the source and trivially passes here). -/
def childSplitL (d : NodeData) (l : KD) : Bool :=
  l.nodeList.all fun c => decide (axisKey d.axis c < axisKey d.axis d)

/-- Right-subtree coordinate check of `(*Node).validate`: every node of the
right subtree is greater-or-equal on the node's axis. -/
def childSplitR (d : NodeData) (r : KD) : Bool :=
  r.nodeList.all fun c => decide (axisKey d.axis d ≤ axisKey d.axis c)

/-- Axis and parent-pointer checks of `(*Node).validate` for a direct
child: the child's axis is the parent's axis + 1 mod dimensions and its
parent pointer points back to the parent. -/
def childMetaOk (d : NodeData) (c : KD) : Bool :=
  match c.topData with
  | none => true
  | some cd => cd.axis == (d.axis + 1) % d.coords.length && cd.parent == some d.nid

/-- `(*Node).validate` (tree.go 148-208) as a Boolean: `true` iff the Go
function returns nil, i.e. all of the left/right coordinate checks, the
child axis and parent-pointer checks, and both recursive validations pass
(the source returns the first failing check; as a Boolean this is their
conjunction). -/
def KD.validateOk : KD → Bool
  | .nil => true
  | .node d l r =>
    (childSplitL d l && childMetaOk d l && l.validateOk) &&
    (childSplitR d r && childMetaOk d r && r.validateOk)

/-- `(*Tree).Validate` (tree.go 135-139) calls `Root.validate()`, which
dereferences a nil root: `none` models that panic. -/
def GoTree.validateRes (t : GoTree) : Option Bool :=
  match t.root with
  | .nil => none
  | rt => some rt.validateOk

/-- The sort adapter: `sort.Sort` on a `sortableNodeList` with `Less`
comparing the coordinates on one axis (nodelist.go 51-61), modelled as a
stable sort by that key (see the file header). -/
def sortByAxis (ax : Nat) (l : List NodeData) : List NodeData :=
  List.insertionSort (fun a b => axisKey ax a ≤ axisKey ax b) l

/-- Fuel-indexed form of `buildRootNode` (tree.go 91-124): structural
recursion on a fuel counter so the definition computes by kernel
reduction. Every recursive call is on a strictly shorter list, so any fuel
at least the list length (as supplied by `buildRootNode`) never runs out;
the fuel-exhausted branch is unreachable from the wrapper. -/
def buildGo : Nat → List NodeData → Nat → Option Nat → KD
  | _, [], _, _ => .nil
  | _, [d], depth, parent =>
    .node { d with axis := depth % d.coords.length, parent := parent } .nil .nil
  | fuel + 1, d0 :: d1 :: rest, depth, parent =>
    let ns := d0 :: d1 :: rest
    let median := ns.length / 2 - 1
    let ax := depth % d0.coords.length
    let sorted := sortByAxis ax ns
    let rootd := sorted.getD median default
    KD.node { rootd with axis := ax, parent := parent }
      (buildGo fuel (sorted.take median) (depth + 1) (some rootd.nid))
      (buildGo fuel (sorted.drop (median + 1)) (depth + 1) (some rootd.nid))
  | 0, _ :: _ :: _, _, _ => .nil

/-- `buildRootNode` (tree.go 91-124): empty list gives nil; a singleton
becomes a leaf with its axis set and children cleared; otherwise sort by
the axis `depth mod dimensions`, take the element at index `len/2 - 1` as
the subtree root and recurse on the elements before / after it. -/
def buildRootNode (nodes : List NodeData) (depth : Nat) (parent : Option Nat) : KD :=
  buildGo nodes.length nodes depth parent

/-- Tag every node of a subtree with an owning tree id, as the traversal at
the end of `BuildTree` (tree.go 79-82) does. -/
def KD.setTreeTag (tid : Nat) : KD → KD
  | .nil => .nil
  | .node d l r => .node { d with tree := some tid } (l.setTreeTag tid) (r.setTreeTag tid)

/-- `BuildTree` (tree.go 74-85): build the root node from the list, then
set the `tree` field of every member. `tid` is the identity of the fresh
`Tree` object. -/
def BuildTree (tid : Nat) (nodes : List NodeData) : GoTree :=
  { tid := tid, root := (buildRootNode nodes 0 none).setTreeTag tid }

/-- `(*Tree).Balance` (tree.go 127-132): rebuild from the current node list
(the `tree` tags are not touched). -/
def GoTree.balance (t : GoTree) : GoTree :=
  { t with root := buildRootNode t.root.nodeList 0 none }

/-- The recoverable error of `(*Node).add`, plus the modelled nil-pointer
panic. -/
inductive AddErr where
  | dimensionMismatch
  | panics
deriving Repr, DecidableEq

/-- The leaf attached by `(*Node).add` under a host node with data `d`:
the new node's axis becomes `(d.axis + 1) mod dimensions` and its parent
pointer is set to the host node. -/
def attachLeaf (nd : NodeData) (d : NodeData) : KD :=
  .node { nd with axis := (d.axis + 1) % d.coords.length, parent := some d.nid } .nil .nil

/-- `(*Node).add` (nodelist.go 254-303) specialised to a childless argument
record `nd` (its children have already been re-added and cleared, its parent
pointer erased): the dimension check fires only when the host node's parent
pointer is nil, then the node descends by comparing coordinates on the
host's axis and is attached at the first empty slot. An error from the
recursive descent is discarded by the source (`n.leftChild.add(newnode)`
without checking the result), which the `(none, ...)` results mirror. -/
def placeLeaf : KD → NodeData → Option AddErr × KD
  | .nil, _ => (some .panics, .nil)
  | .node d l r, nd =>
    if d.parent = none ∧ nd.coords.length ≠ d.coords.length then
      (some .dimensionMismatch, .node d l r)
    else if nd.coords.getD d.axis 0 < d.coords.getD d.axis 0 then
      match l with
      | .nil => (none, .node d (attachLeaf nd d) r)
      | lc => (none, .node d (placeLeaf lc nd).2 r)
    else
      match r with
      | .nil => (none, .node d l (attachLeaf nd d))
      | rc => (none, .node d l (placeLeaf rc nd).2)

/-- Early-return sequencing of `add`: Go returns the error immediately,
leaving the host in its partially mutated state; otherwise the computation
continues on the mutated host. -/
def afterErr (p : Option AddErr × KD) (cont : KD → Option AddErr × KD) : Option AddErr × KD :=
  match p with
  | (some e, h) => (some e, h)
  | (none, h) => cont h

/-- `(*Node).add` (nodelist.go 254-303) for a general argument: check the
new node's dimensions (only at a host whose parent pointer is nil), erase
the new node's parent pointer, re-add its left then its right subtree into
the host (each re-add returning its error immediately and leaving already
re-added nodes in place), clear its child pointers, and finally place the
now childless node as a leaf. Go continues the placement in the same
invocation; the final `placeLeaf` re-runs the already-passed dimension
check, which cannot change the outcome. -/
def nodeAdd : KD → KD → Option AddErr × KD
  | host, .nil => (some .panics, host)
  | .nil, .node _ _ _ => (some .panics, .nil)
  | .node d l r, .node nd nl nr =>
    if d.parent = none ∧ nd.coords.length ≠ d.coords.length then
      (some .dimensionMismatch, .node d l r)
    else
      match nl with
      | .nil =>
        match nr with
        | .nil => placeLeaf (.node d l r) { nd with parent := none }
        | .node _ _ _ =>
          afterErr (nodeAdd (.node d l r) nr) fun h1 =>
            placeLeaf h1 { nd with parent := none }
      | .node _ _ _ =>
        afterErr (nodeAdd (.node d l r) nl) fun h1 =>
          match nr with
          | .nil => placeLeaf h1 { nd with parent := none }
          | .node _ _ _ =>
            afterErr (nodeAdd h1 nr) fun h2 =>
              placeLeaf h2 { nd with parent := none }

/-- `(*Tree).Add` (tree.go 38-46): an empty tree takes the new node as its
root verbatim (its axis, links and tree tag are NOT touched); otherwise
delegate to `Root.add`. -/
def GoTree.add (t : GoTree) (newnode : KD) : Option AddErr × GoTree :=
  match t.root with
  | .nil => (none, { t with root := newnode })
  | rt =>
    match nodeAdd rt newnode with
    | (e, rt2) => (e, { t with root := rt2 })

/-- The recoverable error of `(*Tree).Remove`, plus the modelled panic
raised when a cascaded re-insertion fails. -/
inductive RemErr where
  | notAMember
  | panics
deriving Repr, DecidableEq

/-- Clear the parent pointer of the top node of a subtree (promotion of a
child to tree root inside `(*Node).remove`). -/
def KD.clearParent : KD → KD
  | .nil => .nil
  | .node d l r => .node { d with parent := none } l r

/-- The cascade step of `(*Node).remove` (nodelist.go 324-334): re-add the
removed node's left subtree, then its right subtree, into the former parent
via `add`; an error there makes the Go code panic. -/
def readdChildren (host : KD) (cl cr : KD) : Option AddErr × KD :=
  match cl with
  | .nil =>
    match cr with
    | .nil => (none, host)
    | rsub => nodeAdd host rsub
  | lsub =>
    match nodeAdd host lsub with
    | (some e, h) => (some e, h)
    | (none, h) =>
      match cr with
      | .nil => (none, h)
      | rsub => nodeAdd h rsub

/-- The non-root branch of `(*Node).remove` (nodelist.go 308-338), performed
at the removed node's structural parent: nil the parent's slot holding the
node, then re-add the node's left and right subtrees via the parent's `add`.
Returns (found, panicked, updated subtree); the search mirrors following
the node's parent pointer when node ids are unique and parent pointers are
consistent. -/
def removeBelow (t : KD) (nid : Nat) : Bool × Bool × KD :=
  match t with
  | .nil => (false, false, .nil)
  | .node d l r =>
    if l.topData.map NodeData.nid = some nid then
      match l with
      | .nil => (false, false, .node d l r)
      | .node _ ll lr =>
        match readdChildren (KD.node d .nil r) ll lr with
        | (e, h) => (true, e.isSome, h)
    else if r.topData.map NodeData.nid = some nid then
      match r with
      | .nil => (false, false, .node d l r)
      | .node _ rl rr =>
        match readdChildren (KD.node d l .nil) rl rr with
        | (e, h) => (true, e.isSome, h)
    else
      match removeBelow l nid with
      | (true, p, l2) => (true, p, .node d l2 r)
      | (false, _, _) =>
        match removeBelow r nid with
        | (fr, pr, r2) => (fr, pr, .node d l r2)

/-- `(*Tree).Remove` (tree.go 50-61) composed with `(*Node).remove`
(nodelist.go 307-361). The guard compares the node's `tree` tag with the
tree; the root branch keys off the node's parent pointer being nil. A
childless root returns no new root, so `Tree.Remove` leaves `Root`
unchanged. The argument `n` is the field record of the node the caller's
pointer designates; the surgery is modelled for nodes structurally present
in the tree (the only case our theorems use). -/
def GoTree.removeNode (t : GoTree) (n : NodeData) : Option RemErr × GoTree :=
  if n.tree ≠ some t.tid then (some .notAMember, t)
  else if n.parent = none then
    match t.root with
    | .nil => (none, t)
    | .node d l r =>
      if d.nid ≠ n.nid then (none, t)
      else
        match l, r with
        | .nil, .nil => (none, t)
        | .node _ _ _, .nil => (none, { t with root := l.clearParent })
        | .nil, .node _ _ _ => (none, { t with root := r.clearParent })
        | .node _ _ _, .node _ _ _ =>
          match nodeAdd r.clearParent l with
          | (some _, h) => (some .panics, { t with root := h })
          | (none, h) => (none, { t with root := h })
  else
    match removeBelow t.root n.nid with
    | (_, true, h) => (some .panics, { t with root := h })
    | (_, false, h) => (none, { t with root := h })

/-- The structural invariant of a k-d (sub)tree with dimension `k`, as the
conjunction checked by `validate` plus dimensional consistency and axis
range (spec section 3): strict split to the left, non-strict to the right,
axis progression and parent back-pointers. -/
def Valid (k : Nat) : KD → Prop
  | .nil => True
  | .node d l r =>
    d.coords.length = k ∧ d.axis < k ∧
    (∀ x ∈ l.nodeList, axisKey d.axis x < axisKey d.axis d) ∧
    (∀ x ∈ r.nodeList, axisKey d.axis d ≤ axisKey d.axis x) ∧
    (∀ c ∈ l.topData, c.axis = (d.axis + 1) % k ∧ c.parent = some d.nid) ∧
    (∀ c ∈ r.topData, c.axis = (d.axis + 1) % k ∧ c.parent = some d.nid) ∧
    Valid k l ∧ Valid k r

/-- Every node's axis equals its depth modulo `k` (spec: axis is derived,
`depth mod k`, 0 at the root). -/
def AxisEqDepth (k : Nat) : Nat → KD → Prop
  | _, .nil => True
  | depth, .node d l r =>
    d.axis = depth % k ∧ AxisEqDepth k (depth + 1) l ∧ AxisEqDepth k (depth + 1) r

/-- All member records have coordinate length `k`. -/
def AllDims (k : Nat) (t : KD) : Prop := ∀ x ∈ t.nodeList, x.coords.length = k

instance (k : Nat) (t : KD) : Decidable (AllDims k t) :=
  List.decidableBAll _ t.nodeList

/-- A node satisfies every restriction of a range map: for each entry
`(a, [lo, hi])`, `lo <= coords[a] <= hi` (the filter of INV-4). -/
def inRanges (ranges : Ranges) (d : NodeData) : Bool :=
  ranges.all fun ar => !(d.coords.getD ar.1.toNat 0 < ar.2.min || d.coords.getD ar.1.toNat 0 > ar.2.max)

/-- The identity-relevant part of a node record: id, coordinates and tree
tag (everything the builder does not overwrite). -/
def stripLinks (d : NodeData) : Nat × List Coord × Option Nat := (d.nid, d.coords, d.tree)

/-- Concrete input for the C1 counterexample: four 2-D nodes with pairwise
distinct coordinate vectors but one shared value on axis 0. -/
def exC1nodes : List NodeData :=
  [⟨0, 0, [1, 0], none, none⟩, ⟨1, 0, [1, 1], none, none⟩,
   ⟨2, 0, [1, 2], none, none⟩, ⟨3, 0, [1, 3], none, none⟩]

/-- Concrete input for the C3 counterexample: duplicates on the split axis. -/
def exC3nodes : List NodeData :=
  [⟨0, 0, [2, 0], none, none⟩, ⟨1, 0, [2, 1], none, none⟩,
   ⟨2, 0, [2, 2], none, none⟩, ⟨3, 0, [2, 3], none, none⟩]

/-- Concrete one-node tree for C4 (childless root). -/
def exC4tree : GoTree := BuildTree 5 [⟨0, 0, [7, 7], none, none⟩]

/-- Concrete tree for C5: a fresh node inserted into an empty tree via
`Tree.Add` (which never sets the node's `tree` tag). -/
def exC5tree : GoTree :=
  (GoTree.add ⟨3, .nil⟩ (.node ⟨9, 0, [1], none, none⟩ .nil .nil)).2

/-- Concrete host tree for C6: one 1-D node. -/
def exC6host : GoTree := ⟨0, .node ⟨0, 0, [5], none, none⟩ .nil .nil⟩

/-- Concrete argument subtree for C6: root and left child are 1-D, the
right child is 2-D (mixed coordinate lengths). -/
def exC6arg : KD :=
  .node ⟨1, 0, [3], none, none⟩
    (.node ⟨2, 0, [1], none, none⟩ .nil .nil)
    (.node ⟨3, 0, [2, 2], none, none⟩ .nil .nil)

/-- Concrete 3-node tree for C8: the built root has only a right spine, so
removing it promotes the right child. -/
def exC8tree : GoTree :=
  BuildTree 0 [⟨0, 0, [0, 9], none, none⟩, ⟨1, 0, [1, 8], none, none⟩, ⟨2, 0, [2, 7], none, none⟩]

instance (ax : Nat) : IsTotal NodeData (fun a b => axisKey ax a ≤ axisKey ax b) :=
  ⟨fun _ _ => Int.le_total _ _⟩

instance (ax : Nat) : IsTrans NodeData (fun a b => axisKey ax a ≤ axisKey ax b) :=
  ⟨fun _ _ _ => le_trans⟩

/-- The embedded float-slice equality decides list equality. -/
theorem equal_fl_iff (a b : List Coord) : equal_fl a b = true ↔ a = b := by
  unfold equal_fl
  split
  · rename_i h
    simp only [Bool.false_eq_true, false_iff]
    intro he
    exact h (by rw [he])
  · rename_i h
    rw [not_ne_iff] at h
    rw [List.all_eq_true]
    constructor
    · intro hall
      apply List.ext_getElem h
      intro i h1 h2
      have hx := hall i (List.mem_range.mpr h1)
      rw [List.getD_eq_getElem _ _ h1, List.getD_eq_getElem _ _ h2, beq_iff_eq] at hx
      exact hx
    · intro he i hi
      subst he
      simp

/-- The fuel of `buildGo` is irrelevant as long as it is at least the list
length. -/
theorem buildGo_fuel (fuel fuel' : Nat) : ∀ (nodes : List NodeData) (depth : Nat)
    (parent : Option Nat), nodes.length ≤ fuel → nodes.length ≤ fuel' →
    buildGo fuel nodes depth parent = buildGo fuel' nodes depth parent := by
  induction fuel generalizing fuel' with
  | zero =>
    intro nodes depth parent h1 _
    match nodes with
    | [] => cases fuel' <;> rfl
    | [d] => cases fuel' <;> rfl
    | d0 :: d1 :: rest => simp at h1
  | succ f ih =>
    intro nodes depth parent h1 h2
    match nodes with
    | [] => cases fuel' <;> rfl
    | [d] => cases fuel' <;> rfl
    | d0 :: d1 :: rest =>
      match fuel', h2 with
      | f' + 1, _ =>
        show KD.node _ _ _ = KD.node _ _ _
        have hlen : (sortByAxis (depth % d0.coords.length) (d0 :: d1 :: rest)).length
            = (d0 :: d1 :: rest).length :=
          List.length_insertionSort _ _
        have hle : (d0 :: d1 :: rest).length / 2 - 1 + 1 ≤ (d0 :: d1 :: rest).length := by
          simp only [List.length_cons]
          omega
        congr 1
        · apply ih
          · rw [List.length_take]
            simp only [List.length_cons] at *
            omega
          · rw [List.length_take]
            simp only [List.length_cons] at *
            omega
        · apply ih
          · rw [List.length_drop]
            simp only [List.length_cons] at *
            omega
          · rw [List.length_drop]
            simp only [List.length_cons] at *
            omega

/-- Unfolding equation of `buildRootNode` for lists of length at least 2. -/
theorem buildRootNode_cons2 (d0 d1 : NodeData) (rest : List NodeData) (depth : Nat)
    (parent : Option Nat) :
    buildRootNode (d0 :: d1 :: rest) depth parent =
      KD.node { (sortByAxis (depth % d0.coords.length) (d0 :: d1 :: rest)).getD
                  ((d0 :: d1 :: rest).length / 2 - 1) default with
                axis := depth % d0.coords.length, parent := parent }
        (buildRootNode ((sortByAxis (depth % d0.coords.length) (d0 :: d1 :: rest)).take
            ((d0 :: d1 :: rest).length / 2 - 1)) (depth + 1)
          (some ((sortByAxis (depth % d0.coords.length) (d0 :: d1 :: rest)).getD
            ((d0 :: d1 :: rest).length / 2 - 1) default).nid))
        (buildRootNode ((sortByAxis (depth % d0.coords.length) (d0 :: d1 :: rest)).drop
            ((d0 :: d1 :: rest).length / 2 - 1 + 1)) (depth + 1)
          (some ((sortByAxis (depth % d0.coords.length) (d0 :: d1 :: rest)).getD
            ((d0 :: d1 :: rest).length / 2 - 1) default).nid)) := by
  have hlen : (sortByAxis (depth % d0.coords.length) (d0 :: d1 :: rest)).length
      = (d0 :: d1 :: rest).length :=
    List.length_insertionSort _ _
  show KD.node _ _ _ = KD.node _ _ _
  congr 1
  · apply buildGo_fuel
    · rw [List.length_take]
      simp only [List.length_cons] at *
      omega
    · rfl
  · apply buildGo_fuel
    · rw [List.length_drop]
      simp only [List.length_cons] at *
      omega
    · rfl

/-- The sort adapter permutes its input. -/
theorem sortByAxis_perm (ax : Nat) (l : List NodeData) : (sortByAxis ax l).Perm l :=
  List.perm_insertionSort _ _

/-- The sort adapter preserves length. -/
theorem sortByAxis_length (ax : Nat) (l : List NodeData) :
    (sortByAxis ax l).length = l.length :=
  List.length_insertionSort _ _

/-- The sort adapter sorts by the axis key. -/
theorem sortByAxis_sorted (ax : Nat) (l : List NodeData) :
    List.Sorted (fun a b => axisKey ax a ≤ axisKey ax b) (sortByAxis ax l) :=
  List.sorted_insertionSort _ _

/-- Node list of a non-nil subtree. -/
theorem nodeList_node (d : NodeData) (l r : KD) :
    (KD.node d l r).nodeList = l.nodeList ++ r.nodeList ++ [d] := rfl

/-- Unfolded membership in the node list of a non-nil subtree. -/
theorem mem_nodeList_node {x : NodeData} {d : NodeData} {l r : KD} :
    x ∈ (KD.node d l r).nodeList ↔ x ∈ l.nodeList ∨ x ∈ r.nodeList ∨ x = d := by
  simp [nodeList_node, or_assoc]

/-- Every member of a valid subtree has coordinate length `k`. -/
theorem valid_allDims {k : Nat} : ∀ {t : KD}, Valid k t → AllDims k t := by
  intro t
  induction t with
  | nil => intro _ x hx; simp [KD.nodeList] at hx
  | node d l r ihl ihr =>
    intro hv x hx
    obtain ⟨hdim, _, _, _, _, _, hvl, hvr⟩ := hv
    rcases mem_nodeList_node.mp hx with h | h | h
    · exact ihl hvl x h
    · exact ihr hvr x h
    · subst h; exact hdim

/-- Every member of a valid subtree has its axis below `k`. -/
theorem valid_axisLt {k : Nat} : ∀ {t : KD}, Valid k t → ∀ x ∈ t.nodeList, x.axis < k := by
  intro t
  induction t with
  | nil => intro _ x hx; simp [KD.nodeList] at hx
  | node d l r ihl ihr =>
    intro hv x hx
    obtain ⟨_, hax, _, _, _, _, hvl, hvr⟩ := hv
    rcases mem_nodeList_node.mp hx with h | h | h
    · exact ihl hvl x h
    · exact ihr hvr x h
    · subst h; exact hax

/-- The code's `validate` succeeds on every subtree satisfying the
structural invariant. -/
theorem validateOk_of_valid {k : Nat} : ∀ {t : KD}, Valid k t → t.validateOk = true := by
  intro t
  induction t with
  | nil => intro _; rfl
  | node d l r ihl ihr =>
    intro hv
    obtain ⟨hdim, hax, hls, hrs, hlm, hrm, hvl, hvr⟩ := hv
    show ((childSplitL d l && childMetaOk d l && l.validateOk) &&
      (childSplitR d r && childMetaOk d r && r.validateOk)) = true
    have h1 : childSplitL d l = true := by
      rw [childSplitL, List.all_eq_true]
      intro c hc
      exact decide_eq_true (hls c hc)
    have h2 : childSplitR d r = true := by
      rw [childSplitR, List.all_eq_true]
      intro c hc
      exact decide_eq_true (hrs c hc)
    have h3 : childMetaOk d l = true := by
      rw [childMetaOk]
      match l with
      | .nil => rfl
      | .node ld _ _ =>
        obtain ⟨ha, hp⟩ := hlm ld rfl
        simp [KD.topData, ha, hp, hdim]
    have h4 : childMetaOk d r = true := by
      rw [childMetaOk]
      match r with
      | .nil => rfl
      | .node rd _ _ =>
        obtain ⟨ha, hp⟩ := hrm rd rfl
        simp [KD.topData, ha, hp, hdim]
    simp [h1, h2, h3, h4, ihl hvl, ihr hvr]

/-- Unfolding: `placeLeaf` on a nil host models the nil dereference. -/
theorem placeLeaf_nil (nd : NodeData) : placeLeaf .nil nd = (some .panics, .nil) := rfl

/-- Unfolding: the dimension check at a host whose parent pointer is nil. -/
theorem placeLeaf_dimErr {d : NodeData} {l r : KD} {nd : NodeData}
    (hdim : d.parent = none ∧ nd.coords.length ≠ d.coords.length) :
    placeLeaf (.node d l r) nd = (some .dimensionMismatch, .node d l r) := by
  unfold placeLeaf
  rw [if_pos hdim]

/-- Unfolding: attach to the empty left slot. -/
theorem placeLeaf_lt_nil {d : NodeData} {r : KD} {nd : NodeData}
    (hdim : ¬(d.parent = none ∧ nd.coords.length ≠ d.coords.length))
    (hlt : nd.coords.getD d.axis 0 < d.coords.getD d.axis 0) :
    placeLeaf (.node d .nil r) nd = (none, .node d (attachLeaf nd d) r) := by
  unfold placeLeaf
  rw [if_neg hdim, if_pos hlt]

/-- Unfolding: descend into the non-empty left child. -/
theorem placeLeaf_lt_node {d ld : NodeData} {ll lr r : KD} {nd : NodeData}
    (hdim : ¬(d.parent = none ∧ nd.coords.length ≠ d.coords.length))
    (hlt : nd.coords.getD d.axis 0 < d.coords.getD d.axis 0) :
    placeLeaf (.node d (.node ld ll lr) r) nd =
      (none, .node d (placeLeaf (.node ld ll lr) nd).2 r) := by
  conv_lhs => unfold placeLeaf
  rw [if_neg hdim, if_pos hlt]

/-- Unfolding: attach to the empty right slot. -/
theorem placeLeaf_ge_nil {d : NodeData} {l : KD} {nd : NodeData}
    (hdim : ¬(d.parent = none ∧ nd.coords.length ≠ d.coords.length))
    (hge : ¬ nd.coords.getD d.axis 0 < d.coords.getD d.axis 0) :
    placeLeaf (.node d l .nil) nd = (none, .node d l (attachLeaf nd d)) := by
  unfold placeLeaf
  rw [if_neg hdim, if_neg hge]

/-- Unfolding: descend into the non-empty right child. -/
theorem placeLeaf_ge_node {d rd : NodeData} {l rl rr : KD} {nd : NodeData}
    (hdim : ¬(d.parent = none ∧ nd.coords.length ≠ d.coords.length))
    (hge : ¬ nd.coords.getD d.axis 0 < d.coords.getD d.axis 0) :
    placeLeaf (.node d l (.node rd rl rr)) nd =
      (none, .node d l (placeLeaf (.node rd rl rr) nd).2) := by
  conv_lhs => unfold placeLeaf
  rw [if_neg hdim, if_neg hge]

/-- A failed `placeLeaf` leaves the host unchanged (errors happen before
any mutation). -/
theorem placeLeaf_err_unchanged {h : KD} {nd : NodeData} {e : AddErr}
    (he : (placeLeaf h nd).1 = some e) : (placeLeaf h nd).2 = h := by
  match h with
  | .nil => rfl
  | .node d l r =>
    by_cases hdim : d.parent = none ∧ nd.coords.length ≠ d.coords.length
    · rw [placeLeaf_dimErr hdim]
    · by_cases hlt : nd.coords.getD d.axis 0 < d.coords.getD d.axis 0
      · match l with
        | .nil => rw [placeLeaf_lt_nil hdim hlt] at he; cases he
        | .node ld ll lr => rw [placeLeaf_lt_node hdim hlt] at he; cases he
      · match r with
        | .nil => rw [placeLeaf_ge_nil hdim hlt] at he; cases he
        | .node rd rl rr => rw [placeLeaf_ge_node hdim hlt] at he; cases he

/-- `placeLeaf` does not change the record at the top of the host. -/
theorem placeLeaf_topData {d : NodeData} {l r : KD} {nd : NodeData} :
    (placeLeaf (.node d l r) nd).2.topData = some d := by
  by_cases hdim : d.parent = none ∧ nd.coords.length ≠ d.coords.length
  · rw [placeLeaf_dimErr hdim]; rfl
  · by_cases hlt : nd.coords.getD d.axis 0 < d.coords.getD d.axis 0
    · match l with
      | .nil => rw [placeLeaf_lt_nil hdim hlt]; rfl
      | .node ld ll lr => rw [placeLeaf_lt_node hdim hlt]; rfl
    · match r with
      | .nil => rw [placeLeaf_ge_nil hdim hlt]; rfl
      | .node rd rl rr => rw [placeLeaf_ge_node hdim hlt]; rfl

/-- Every member after `placeLeaf` is an old member or carries the new
node's coordinates. -/
theorem placeLeaf_mem {h : KD} {nd : NodeData} :
    ∀ x ∈ (placeLeaf h nd).2.nodeList, x ∈ h.nodeList ∨ x.coords = nd.coords := by
  induction h with
  | nil => intro x hx; exact .inl hx
  | node d l r ihl ihr =>
    intro x hx
    by_cases hdim : d.parent = none ∧ nd.coords.length ≠ d.coords.length
    · rw [placeLeaf_dimErr hdim] at hx; exact .inl hx
    · by_cases hlt : nd.coords.getD d.axis 0 < d.coords.getD d.axis 0
      · match l with
        | .nil =>
          rw [placeLeaf_lt_nil hdim hlt] at hx
          rcases mem_nodeList_node.mp hx with hm | hm | hm
          · simp only [attachLeaf, KD.nodeList, List.nil_append, List.mem_singleton] at hm
            subst hm
            exact .inr rfl
          · exact .inl (mem_nodeList_node.mpr (.inr (.inl hm)))
          · exact .inl (mem_nodeList_node.mpr (.inr (.inr hm)))
        | .node ld ll lr =>
          rw [placeLeaf_lt_node hdim hlt] at hx
          rcases mem_nodeList_node.mp hx with hm | hm | hm
          · rcases ihl x hm with hm2 | hm2
            · exact .inl (mem_nodeList_node.mpr (.inl hm2))
            · exact .inr hm2
          · exact .inl (mem_nodeList_node.mpr (.inr (.inl hm)))
          · exact .inl (mem_nodeList_node.mpr (.inr (.inr hm)))
      · match r with
        | .nil =>
          rw [placeLeaf_ge_nil hdim hlt] at hx
          rcases mem_nodeList_node.mp hx with hm | hm | hm
          · exact .inl (mem_nodeList_node.mpr (.inl hm))
          · simp only [attachLeaf, KD.nodeList, List.nil_append, List.mem_singleton] at hm
            subst hm
            exact .inr rfl
          · exact .inl (mem_nodeList_node.mpr (.inr (.inr hm)))
        | .node rd rl rr =>
          rw [placeLeaf_ge_node hdim hlt] at hx
          rcases mem_nodeList_node.mp hx with hm | hm | hm
          · exact .inl (mem_nodeList_node.mpr (.inl hm))
          · rcases ihr x hm with hm2 | hm2
            · exact .inl (mem_nodeList_node.mpr (.inr (.inl hm2)))
            · exact .inr hm2
          · exact .inl (mem_nodeList_node.mpr (.inr (.inr hm)))

/-- The leaf record attached under a node of a `k`-valid tree is itself a
valid one-node subtree. -/
theorem attachLeaf_valid {k : Nat} (hk : 0 < k) {nd d : NodeData}
    (hnd : nd.coords.length = k) (hd : d.coords.length = k) :
    Valid k (attachLeaf nd d) := by
  refine ⟨hnd, ?_, ?_, ?_, ?_, ?_, trivial, trivial⟩
  · show (d.axis + 1) % d.coords.length < k
    rw [hd]
    exact Nat.mod_lt _ hk
  · intro x hx; simp [KD.nodeList] at hx
  · intro x hx; simp [KD.nodeList] at hx
  · intro c hc; simp [KD.topData] at hc
  · intro c hc; simp [KD.topData] at hc

/-- Inserting a leaf with coordinates of the right length preserves the
structural invariant. -/
theorem placeLeaf_valid {k : Nat} (hk : 0 < k) {h : KD} {nd : NodeData}
    (hv : Valid k h) (hnd : nd.coords.length = k) : Valid k (placeLeaf h nd).2 := by
  induction h with
  | nil => exact trivial
  | node d l r ihl ihr =>
    obtain ⟨hdims, hax, hls, hrs, hlm, hrm, hvl, hvr⟩ := hv
    by_cases hdim : d.parent = none ∧ nd.coords.length ≠ d.coords.length
    · rw [placeLeaf_dimErr hdim]
      exact ⟨hdims, hax, hls, hrs, hlm, hrm, hvl, hvr⟩
    · by_cases hlt : nd.coords.getD d.axis 0 < d.coords.getD d.axis 0
      · match l with
        | .nil =>
          rw [placeLeaf_lt_nil hdim hlt]
          refine ⟨hdims, hax, ?_, hrs, ?_, hrm, attachLeaf_valid hk hnd hdims, hvr⟩
          · intro x hx
            simp only [attachLeaf, KD.nodeList, List.nil_append, List.mem_singleton] at hx
            subst hx
            exact hlt
          · intro c hc
            simp only [attachLeaf, KD.topData, Option.mem_def, Option.some.injEq] at hc
            subst hc
            constructor
            · show (d.axis + 1) % d.coords.length = (d.axis + 1) % k
              rw [hdims]
            · rfl
        | .node ld ll lr =>
          rw [placeLeaf_lt_node hdim hlt]
          refine ⟨hdims, hax, ?_, hrs, ?_, hrm, ihl hvl, hvr⟩
          · intro x hx
            rcases placeLeaf_mem x hx with hm | hm
            · exact hls x hm
            · show axisKey d.axis x < axisKey d.axis d
              unfold axisKey
              rw [hm]
              exact hlt
          · intro c hc
            rw [placeLeaf_topData] at hc
            exact hlm c hc
      · match r with
        | .nil =>
          rw [placeLeaf_ge_nil hdim hlt]
          refine ⟨hdims, hax, hls, ?_, hlm, ?_, hvl, attachLeaf_valid hk hnd hdims⟩
          · intro x hx
            simp only [attachLeaf, KD.nodeList, List.nil_append, List.mem_singleton] at hx
            subst hx
            exact le_of_not_lt hlt
          · intro c hc
            simp only [attachLeaf, KD.topData, Option.mem_def, Option.some.injEq] at hc
            subst hc
            constructor
            · show (d.axis + 1) % d.coords.length = (d.axis + 1) % k
              rw [hdims]
            · rfl
        | .node rd rl rr =>
          rw [placeLeaf_ge_node hdim hlt]
          refine ⟨hdims, hax, hls, ?_, hlm, ?_, hvl, ihr hvr⟩
          · intro x hx
            rcases placeLeaf_mem x hx with hm | hm
            · exact hrs x hm
            · show axisKey d.axis d ≤ axisKey d.axis x
              unfold axisKey
              rw [hm]
              exact le_of_not_lt hlt
          · intro c hc
            rw [placeLeaf_topData] at hc
            exact hrm c hc

/-- A subtree with a known top record is a node. -/
theorem topData_some_iff {h : KD} {d : NodeData} :
    h.topData = some d ↔ ∃ l r, h = .node d l r := by
  match h with
  | .nil => simp [KD.topData]
  | .node d' l r =>
    simp only [KD.topData, Option.some.injEq]
    constructor
    · intro he; exact ⟨l, r, by rw [he]⟩
    · rintro ⟨l', r', he⟩; cases he; rfl

/-- If the host root passes the placement guards, `placeLeaf` reports no
error. -/
theorem placeLeaf_fst_none {d : NodeData} {l r : KD} {nd : NodeData}
    (hdim : ¬(d.parent = none ∧ nd.coords.length ≠ d.coords.length)) :
    (placeLeaf (.node d l r) nd).1 = none := by
  by_cases hlt : nd.coords.getD d.axis 0 < d.coords.getD d.axis 0
  · match l with
    | .nil => rw [placeLeaf_lt_nil hdim hlt]
    | .node ld ll lr => rw [placeLeaf_lt_node hdim hlt]
  · match r with
    | .nil => rw [placeLeaf_ge_nil hdim hlt]
    | .node rd rl rr => rw [placeLeaf_ge_node hdim hlt]

/-- Unfolding: `add` with a nil argument models the nil dereference. -/
theorem nodeAdd_arg_nil (host : KD) : nodeAdd host .nil = (some .panics, host) := by
  match host with
  | .nil => rfl
  | .node d l r => rfl

/-- Unfolding: `add` on a nil host models the nil dereference. -/
theorem nodeAdd_host_nil (nd : NodeData) (nl nr : KD) :
    nodeAdd .nil (.node nd nl nr) = (some .panics, .nil) := rfl

/-- Unfolding: the dimension check of `add` at a host with nil parent. -/
theorem nodeAdd_dimErr {d : NodeData} {l r : KD} {nd : NodeData} (nl nr : KD)
    (hdim : d.parent = none ∧ nd.coords.length ≠ d.coords.length) :
    nodeAdd (.node d l r) (.node nd nl nr) = (some .dimensionMismatch, .node d l r) := by
  unfold nodeAdd
  rw [if_pos hdim]

/-- Unfolding: `add` of a childless node is a leaf placement. -/
theorem nodeAdd_leaf {d : NodeData} {l r : KD} {nd : NodeData}
    (hdim : ¬(d.parent = none ∧ nd.coords.length ≠ d.coords.length)) :
    nodeAdd (.node d l r) (.node nd .nil .nil) =
      placeLeaf (.node d l r) { nd with parent := none } := by
  unfold nodeAdd
  rw [if_neg hdim]

/-- Unfolding: `add` with a node-shaped argument right subtree re-adds it
first, then places the childless node. -/
theorem nodeAdd_rnode {d : NodeData} {l r : KD} {nd nrd : NodeData} {nrl nrr : KD}
    (hdim : ¬(d.parent = none ∧ nd.coords.length ≠ d.coords.length)) :
    nodeAdd (.node d l r) (.node nd .nil (.node nrd nrl nrr)) =
      afterErr (nodeAdd (.node d l r) (.node nrd nrl nrr)) (fun h1 =>
        placeLeaf h1 { nd with parent := none }) := by
  conv_lhs => unfold nodeAdd
  rw [if_neg hdim]

/-- Unfolding: `add` with a node-shaped argument left subtree and no right
subtree re-adds the left subtree, then places the childless node. -/
theorem nodeAdd_lnode_rnil {d : NodeData} {l r : KD} {nd nld : NodeData} {nll nlr : KD}
    (hdim : ¬(d.parent = none ∧ nd.coords.length ≠ d.coords.length)) :
    nodeAdd (.node d l r) (.node nd (.node nld nll nlr) .nil) =
      afterErr (nodeAdd (.node d l r) (.node nld nll nlr)) (fun h1 =>
        placeLeaf h1 { nd with parent := none }) := by
  conv_lhs => unfold nodeAdd
  rw [if_neg hdim]

/-- Unfolding: `add` with node-shaped argument subtrees on both sides
re-adds left, then right, then places the childless node. -/
theorem nodeAdd_lnode_rnode {d : NodeData} {l r : KD} {nd nld nrd : NodeData}
    {nll nlr nrl nrr : KD}
    (hdim : ¬(d.parent = none ∧ nd.coords.length ≠ d.coords.length)) :
    nodeAdd (.node d l r) (.node nd (.node nld nll nlr) (.node nrd nrl nrr)) =
      afterErr (nodeAdd (.node d l r) (.node nld nll nlr)) (fun h1 =>
        afterErr (nodeAdd h1 (.node nrd nrl nrr)) (fun h2 =>
          placeLeaf h2 { nd with parent := none })) := by
  conv_lhs => unfold nodeAdd
  rw [if_neg hdim]

/-- Unfolding equations of the early-return sequencing. -/
theorem afterErr_some (e : AddErr) (h : KD) (cont : KD → Option AddErr × KD) :
    afterErr (some e, h) cont = (some e, h) := rfl

/-- Unfolding equation of the early-return sequencing, success case. -/
theorem afterErr_none (h : KD) (cont : KD → Option AddErr × KD) :
    afterErr (none, h) cont = cont h := rfl

/-- Adding a subtree never changes the record at the top of the host. -/
theorem nodeAdd_topData {d : NodeData} :
    ∀ (new host : KD), host.topData = some d → ((nodeAdd host new).2).topData = some d := by
  intro new
  induction new with
  | nil =>
    intro host h
    rw [nodeAdd_arg_nil]
    exact h
  | node nd nl nr ihl ihr =>
    intro host h
    obtain ⟨l, r, rfl⟩ := topData_some_iff.mp h
    by_cases hdim : d.parent = none ∧ nd.coords.length ≠ d.coords.length
    · rw [nodeAdd_dimErr nl nr hdim]
      rfl
    · match nl with
      | .nil =>
        match nr with
        | .nil =>
          rw [nodeAdd_leaf hdim]
          exact placeLeaf_topData
        | .node nrd nrl nrr =>
          rw [nodeAdd_rnode hdim]
          rcases hna : nodeAdd (.node d l r) (.node nrd nrl nrr) with ⟨e, h1⟩
          have ht1 : h1.topData = some d := by
            have := ihr (.node d l r) rfl
            rw [hna] at this
            exact this
          match e with
          | some e0 => rw [afterErr_some]; exact ht1
          | none =>
            rw [afterErr_none]
            obtain ⟨l1, r1, rfl⟩ := topData_some_iff.mp ht1
            exact placeLeaf_topData
      | .node nld nll nlr =>
        rcases hna : nodeAdd (.node d l r) (.node nld nll nlr) with ⟨e, h1⟩
        have ht1 : h1.topData = some d := by
          have := ihl (.node d l r) rfl
          rw [hna] at this
          exact this
        match nr with
        | .nil =>
          rw [nodeAdd_lnode_rnil hdim, hna]
          match e with
          | some e0 => rw [afterErr_some]; exact ht1
          | none =>
            rw [afterErr_none]
            obtain ⟨l1, r1, rfl⟩ := topData_some_iff.mp ht1
            exact placeLeaf_topData
        | .node nrd nrl nrr =>
          rw [nodeAdd_lnode_rnode hdim, hna]
          match e with
          | some e0 => rw [afterErr_some]; exact ht1
          | none =>
            rw [afterErr_none]
            rcases hnb : nodeAdd h1 (.node nrd nrl nrr) with ⟨e2, h2⟩
            have ht2 : h2.topData = some d := by
              have := ihr h1 ht1
              rw [hnb] at this
              exact this
            match e2 with
            | some e0 => rw [afterErr_some]; exact ht2
            | none =>
              rw [afterErr_none]
              obtain ⟨l2, r2, rfl⟩ := topData_some_iff.mp ht2
              exact placeLeaf_topData

/-- Every member after a subtree add is an old host member or carries the
coordinates of some node of the added subtree. -/
theorem nodeAdd_mem :
    ∀ (new host : KD), ∀ x ∈ ((nodeAdd host new).2).nodeList,
      x ∈ host.nodeList ∨ ∃ y ∈ new.nodeList, x.coords = y.coords := by
  intro new
  induction new with
  | nil =>
    intro host x hx
    rw [nodeAdd_arg_nil] at hx
    exact .inl hx
  | node nd nl nr ihl ihr =>
    intro host x hx
    have hself : nd ∈ (KD.node nd nl nr).nodeList :=
      mem_nodeList_node.mpr (.inr (.inr rfl))
    have hliftL : ∀ y ∈ nl.nodeList, y ∈ (KD.node nd nl nr).nodeList := fun y hy =>
      mem_nodeList_node.mpr (.inl hy)
    have hliftR : ∀ y ∈ nr.nodeList, y ∈ (KD.node nd nl nr).nodeList := fun y hy =>
      mem_nodeList_node.mpr (.inr (.inl hy))
    match host with
    | .nil =>
      rw [nodeAdd_host_nil] at hx
      exact .inl hx
    | .node d l r =>
      by_cases hdim : d.parent = none ∧ nd.coords.length ≠ d.coords.length
      · rw [nodeAdd_dimErr nl nr hdim] at hx
        exact .inl hx
      · match nl with
        | .nil =>
          match nr with
          | .nil =>
            rw [nodeAdd_leaf hdim] at hx
            rcases placeLeaf_mem x hx with hm | hm
            · exact .inl hm
            · exact .inr ⟨nd, hself, hm⟩
          | .node nrd nrl nrr =>
            rw [nodeAdd_rnode hdim] at hx
            rcases hna : nodeAdd (.node d l r) (.node nrd nrl nrr) with ⟨e, h1⟩
            rw [hna] at hx
            have hmem1 : ∀ z ∈ h1.nodeList,
                z ∈ (KD.node d l r).nodeList ∨
                  ∃ y ∈ (KD.node nd KD.nil (KD.node nrd nrl nrr)).nodeList, z.coords = y.coords := by
              intro z hz
              have := ihr (.node d l r) z (by rw [hna]; exact hz)
              rcases this with hz2 | ⟨y, hy, he⟩
              · exact .inl hz2
              · exact .inr ⟨y, hliftR y hy, he⟩
            match e with
            | some e0 =>
              rw [afterErr_some] at hx
              exact hmem1 x hx
            | none =>
              rw [afterErr_none] at hx
              rcases placeLeaf_mem x hx with hm | hm
              · exact hmem1 x hm
              · exact .inr ⟨nd, hself, hm⟩
        | .node nld nll nlr =>
          rcases hna : nodeAdd (.node d l r) (.node nld nll nlr) with ⟨e, h1⟩
          have hmem1 : ∀ z ∈ h1.nodeList,
              z ∈ (KD.node d l r).nodeList ∨
                ∃ y ∈ (KD.node nd (KD.node nld nll nlr) nr).nodeList, z.coords = y.coords := by
            intro z hz
            have := ihl (.node d l r) z (by rw [hna]; exact hz)
            rcases this with hz2 | ⟨y, hy, he⟩
            · exact .inl hz2
            · exact .inr ⟨y, hliftL y hy, he⟩
          match nr with
          | .nil =>
            rw [nodeAdd_lnode_rnil hdim, hna] at hx
            match e with
            | some e0 =>
              rw [afterErr_some] at hx
              exact hmem1 x hx
            | none =>
              rw [afterErr_none] at hx
              rcases placeLeaf_mem x hx with hm | hm
              · exact hmem1 x hm
              · exact .inr ⟨nd, hself, hm⟩
          | .node nrd nrl nrr =>
            rw [nodeAdd_lnode_rnode hdim, hna] at hx
            match e with
            | some e0 =>
              rw [afterErr_some] at hx
              exact hmem1 x hx
            | none =>
              rw [afterErr_none] at hx
              rcases hnb : nodeAdd h1 (.node nrd nrl nrr) with ⟨e2, h2⟩
              rw [hnb] at hx
              have hmem2 : ∀ z ∈ h2.nodeList,
                  z ∈ (KD.node d l r).nodeList ∨
                    ∃ y ∈ (KD.node nd (KD.node nld nll nlr) (KD.node nrd nrl nrr)).nodeList,
                      z.coords = y.coords := by
                intro z hz
                have := ihr h1 z (by rw [hnb]; exact hz)
                rcases this with hz2 | ⟨y, hy, he⟩
                · exact hmem1 z hz2
                · exact .inr ⟨y, hliftR y hy, he⟩
              match e2 with
              | some e0 =>
                rw [afterErr_some] at hx
                exact hmem2 x hx
              | none =>
                rw [afterErr_none] at hx
                rcases placeLeaf_mem x hx with hm | hm
                · exact hmem2 x hm
                · exact .inr ⟨nd, hself, hm⟩

/-- A leaf placement preserves the invariant when the leaf has the right
dimension, or unconditionally when the host root's parent pointer is nil
(the dimension guard then rejects a wrong-sized leaf unchanged). -/
theorem placeLeaf_valid_or_root {k : Nat} (hk : 0 < k) {h : KD} {d nd : NodeData}
    (htop : h.topData = some d) (hv : Valid k h)
    (hcase : nd.coords.length = k ∨ d.parent = none) :
    Valid k ((placeLeaf h nd).2) := by
  obtain ⟨l, r, rfl⟩ := topData_some_iff.mp htop
  rcases hcase with hdims | hroot
  · exact placeLeaf_valid hk hv hdims
  · by_cases hdims : nd.coords.length = k
    · exact placeLeaf_valid hk hv hdims
    · have hd : d.coords.length = k := hv.1
      have hcond : d.parent = none ∧ nd.coords.length ≠ d.coords.length :=
        ⟨hroot, by rw [hd]; exact hdims⟩
      rw [placeLeaf_dimErr hcond]
      exact hv

/-- Adding a subtree preserves the structural invariant, provided either
every argument node has the tree's dimension or the host root is a tree
root (nil parent pointer, so the dimension guard filters the rest). -/
theorem nodeAdd_valid {k : Nat} (hk : 0 < k) :
    ∀ (new host : KD) (d : NodeData), host.topData = some d → Valid k host →
      ((∀ y ∈ new.nodeList, y.coords.length = k) ∨ d.parent = none) →
      Valid k ((nodeAdd host new).2) := by
  intro new
  induction new with
  | nil =>
    intro host d htop hv _
    rw [nodeAdd_arg_nil]
    exact hv
  | node nd nl nr ihl ihr =>
    intro host d htop hv hcase
    obtain ⟨l, r, rfl⟩ := topData_some_iff.mp htop
    have hcaseSelf : nd.coords.length = k ∨ d.parent = none := by
      rcases hcase with hdims | hroot
      · exact .inl (hdims nd (mem_nodeList_node.mpr (.inr (.inr rfl))))
      · exact .inr hroot
    have hcaseSelf2 : ({ nd with parent := none } : NodeData).coords.length = k
        ∨ d.parent = none := hcaseSelf
    have hcaseL : (∀ y ∈ nl.nodeList, y.coords.length = k) ∨ d.parent = none := by
      rcases hcase with hdims | hroot
      · exact .inl fun y hy => hdims y (mem_nodeList_node.mpr (.inl hy))
      · exact .inr hroot
    have hcaseR : (∀ y ∈ nr.nodeList, y.coords.length = k) ∨ d.parent = none := by
      rcases hcase with hdims | hroot
      · exact .inl fun y hy => hdims y (mem_nodeList_node.mpr (.inr (.inl hy)))
      · exact .inr hroot
    by_cases hdim : d.parent = none ∧ nd.coords.length ≠ d.coords.length
    · rw [nodeAdd_dimErr nl nr hdim]
      exact hv
    · match nl with
      | .nil =>
        match nr with
        | .nil =>
          rw [nodeAdd_leaf hdim]
          exact placeLeaf_valid_or_root hk rfl hv hcaseSelf2
        | .node nrd nrl nrr =>
          rw [nodeAdd_rnode hdim]
          rcases hna : nodeAdd (.node d l r) (.node nrd nrl nrr) with ⟨e, h1⟩
          have hv1 : Valid k h1 := by
            have := ihr (.node d l r) d rfl hv hcaseR
            rw [hna] at this
            exact this
          have ht1 : h1.topData = some d := by
            have := nodeAdd_topData (.node nrd nrl nrr) (.node d l r) rfl
            rw [hna] at this
            exact this
          match e with
          | some e0 => rw [afterErr_some]; exact hv1
          | none =>
            rw [afterErr_none]
            exact placeLeaf_valid_or_root hk ht1 hv1 hcaseSelf2
      | .node nld nll nlr =>
        rcases hna : nodeAdd (.node d l r) (.node nld nll nlr) with ⟨e, h1⟩
        have hv1 : Valid k h1 := by
          have := ihl (.node d l r) d rfl hv hcaseL
          rw [hna] at this
          exact this
        have ht1 : h1.topData = some d := by
          have := nodeAdd_topData (.node nld nll nlr) (.node d l r) rfl
          rw [hna] at this
          exact this
        match nr with
        | .nil =>
          rw [nodeAdd_lnode_rnil hdim, hna]
          match e with
          | some e0 => rw [afterErr_some]; exact hv1
          | none =>
            rw [afterErr_none]
            exact placeLeaf_valid_or_root hk ht1 hv1 hcaseSelf2
        | .node nrd nrl nrr =>
          rw [nodeAdd_lnode_rnode hdim, hna]
          match e with
          | some e0 => rw [afterErr_some]; exact hv1
          | none =>
            rw [afterErr_none]
            rcases hnb : nodeAdd h1 (.node nrd nrl nrr) with ⟨e2, h2⟩
            have hv2 : Valid k h2 := by
              have := ihr h1 d ht1 hv1 hcaseR
              rw [hnb] at this
              exact this
            have ht2 : h2.topData = some d := by
              have := nodeAdd_topData (.node nrd nrl nrr) h1 ht1
              rw [hnb] at this
              exact this
            match e2 with
            | some e0 => rw [afterErr_some]; exact hv2
            | none =>
              rw [afterErr_none]
              exact placeLeaf_valid_or_root hk ht2 hv2 hcaseSelf2

/-- When every node of the added subtree has the host root's dimension,
`add` reports no error. -/
theorem nodeAdd_fst_none {k : Nat} :
    ∀ (new host : KD) (d : NodeData) (nd0 : NodeData) (nl0 nr0 : KD),
      new = .node nd0 nl0 nr0 → host.topData = some d → d.coords.length = k →
      (∀ y ∈ new.nodeList, y.coords.length = k) → (nodeAdd host new).1 = none := by
  intro new
  induction new with
  | nil =>
    intro host d nd0 nl0 nr0 hne
    cases hne
  | node nd nl nr ihl ihr =>
    intro host d nd0 nl0 nr0 _ htop hd hdims
    obtain ⟨l, r, rfl⟩ := topData_some_iff.mp htop
    have hself : nd.coords.length = k :=
      hdims nd (mem_nodeList_node.mpr (.inr (.inr rfl)))
    have hdim : ¬(d.parent = none ∧ nd.coords.length ≠ d.coords.length) := by
      rintro ⟨_, hne⟩
      exact hne (by rw [hself, hd])
    have hdimsL : ∀ y ∈ nl.nodeList, y.coords.length = k := fun y hy =>
      hdims y (mem_nodeList_node.mpr (.inl hy))
    have hdimsR : ∀ y ∈ nr.nodeList, y.coords.length = k := fun y hy =>
      hdims y (mem_nodeList_node.mpr (.inr (.inl hy)))
    have hplace : ∀ (h1 : KD), h1.topData = some d →
        (placeLeaf h1 { nd with parent := none }).1 = none := by
      intro h1 ht1
      obtain ⟨l1, r1, rfl⟩ := topData_some_iff.mp ht1
      apply placeLeaf_fst_none
      rintro ⟨_, hne⟩
      exact hne (by rw [hself, hd])
    match nl with
    | .nil =>
      match nr with
      | .nil =>
        rw [nodeAdd_leaf hdim]
        exact hplace _ rfl
      | .node nrd nrl nrr =>
        rw [nodeAdd_rnode hdim]
        rcases hna : nodeAdd (.node d l r) (.node nrd nrl nrr) with ⟨e, h1⟩
        have he : e = none := by
          have := ihr (.node d l r) d nrd nrl nrr rfl rfl hd hdimsR
          rw [hna] at this
          exact this
        subst he
        rw [afterErr_none]
        apply hplace
        have := nodeAdd_topData (.node nrd nrl nrr) (.node d l r) rfl
        rw [hna] at this
        exact this
    | .node nld nll nlr =>
      rcases hna : nodeAdd (.node d l r) (.node nld nll nlr) with ⟨e, h1⟩
      have he : e = none := by
        have := ihl (.node d l r) d nld nll nlr rfl rfl hd hdimsL
        rw [hna] at this
        exact this
      subst he
      have ht1 : h1.topData = some d := by
        have := nodeAdd_topData (.node nld nll nlr) (.node d l r) rfl
        rw [hna] at this
        exact this
      match nr with
      | .nil =>
        rw [nodeAdd_lnode_rnil hdim, hna, afterErr_none]
        exact hplace _ ht1
      | .node nrd nrl nrr =>
        rw [nodeAdd_lnode_rnode hdim, hna, afterErr_none]
        rcases hnb : nodeAdd h1 (.node nrd nrl nrr) with ⟨e2, h2⟩
        have he2 : e2 = none := by
          have := ihr h1 d nrd nrl nrr rfl ht1 hd hdimsR
          rw [hnb] at this
          exact this
        subst he2
        rw [afterErr_none]
        apply hplace
        have := nodeAdd_topData (.node nrd nrl nrr) h1 ht1
        rw [hnb] at this
        exact this

/-- A failed add of a CHILDLESS node leaves the host unchanged: the only
reachable errors precede any mutation. -/
theorem nodeAdd_leaf_err_unchanged {host : KD} {nd : NodeData} {e : AddErr}
    (he : (nodeAdd host (.node nd .nil .nil)).1 = some e) :
    (nodeAdd host (.node nd .nil .nil)).2 = host := by
  match host with
  | .nil => rw [nodeAdd_host_nil]
  | .node d l r =>
    by_cases hdim : d.parent = none ∧ nd.coords.length ≠ d.coords.length
    · rw [nodeAdd_dimErr _ _ hdim]
    · rw [nodeAdd_leaf hdim] at he ⊢
      exact placeLeaf_err_unchanged he

/-- Stepping the axis of a node at depth `depth` gives the axis at depth
`depth + 1`. -/
theorem mod_add_one_mod (depth k : Nat) : (depth % k + 1) % k = (depth + 1) % k := by
  conv_rhs => rw [Nat.add_mod]
  conv_lhs => rw [Nat.add_mod, Nat.mod_mod_of_dvd depth dvd_rfl]

/-- Membership is preserved by the sort adapter. -/
theorem mem_sortByAxis {x : NodeData} {ax : Nat} {l : List NodeData} :
    x ∈ sortByAxis ax l ↔ x ∈ l :=
  (sortByAxis_perm ax l).mem_iff

/-- The builder derives every axis from the depth: each node of the built
subtree carries `depth mod k`. -/
theorem build_axisEqDepth {k : Nat} (hk : 0 < k) :
    ∀ (nodes : List NodeData) (depth : Nat) (parent : Option Nat),
      (∀ x ∈ nodes, x.coords.length = k) →
      AxisEqDepth k depth (buildRootNode nodes depth parent) := by
  intro nodes
  match nodes with
  | [] =>
    intro depth parent _
    exact trivial
  | [d] =>
    intro depth parent hdims
    refine ⟨?_, trivial, trivial⟩
    show depth % d.coords.length = depth % k
    rw [hdims d (List.mem_singleton_self d)]
  | d0 :: d1 :: rest =>
    intro depth parent hdims
    rw [buildRootNode_cons2]
    have hd0 : d0.coords.length = k := hdims d0 (List.mem_cons_self d0 _)
    have hsub : ∀ x ∈ sortByAxis (depth % d0.coords.length) (d0 :: d1 :: rest),
        x.coords.length = k := fun x hx => hdims x (mem_sortByAxis.mp hx)
    refine ⟨?_, ?_, ?_⟩
    · show depth % d0.coords.length = depth % k
      rw [hd0]
    · exact build_axisEqDepth hk _ (depth + 1) _
        (fun x hx => hsub x (List.take_subset _ _ hx))
    · exact build_axisEqDepth hk _ (depth + 1) _
        (fun x hx => hsub x (List.drop_subset _ _ hx))
termination_by nodes => nodes.length
decreasing_by
  all_goals
    simp only [sortByAxis, List.length_take, List.length_drop,
      List.length_insertionSort, List.length_cons]
  all_goals omega

/-- Inserting a leaf preserves the axis-depth relation: the attached node
gets the axis of its depth. -/
theorem placeLeaf_axisEqDepth {k : Nat} :
    ∀ (h : KD) (depth : Nat) (nd : NodeData), AxisEqDepth k depth h → AllDims k h →
      AxisEqDepth k depth ((placeLeaf h nd).2) := by
  intro h
  induction h with
  | nil =>
    intro depth nd _ _
    exact trivial
  | node d l r ihl ihr =>
    intro depth nd hA hdims
    obtain ⟨hdax, hAl, hAr⟩ := hA
    have hd : d.coords.length = k := hdims d (mem_nodeList_node.mpr (.inr (.inr rfl)))
    have hdimsL : AllDims k l := fun x hx => hdims x (mem_nodeList_node.mpr (.inl hx))
    have hdimsR : AllDims k r := fun x hx => hdims x (mem_nodeList_node.mpr (.inr (.inl hx)))
    have hattach : AxisEqDepth k (depth + 1) (attachLeaf nd d) := by
      refine ⟨?_, trivial, trivial⟩
      show (d.axis + 1) % d.coords.length = (depth + 1) % k
      rw [hd, hdax, mod_add_one_mod]
    by_cases hdim : d.parent = none ∧ nd.coords.length ≠ d.coords.length
    · rw [placeLeaf_dimErr hdim]
      exact ⟨hdax, hAl, hAr⟩
    · by_cases hlt : nd.coords.getD d.axis 0 < d.coords.getD d.axis 0
      · match l with
        | .nil =>
          rw [placeLeaf_lt_nil hdim hlt]
          exact ⟨hdax, hattach, hAr⟩
        | .node ld ll lr =>
          rw [placeLeaf_lt_node hdim hlt]
          exact ⟨hdax, ihl (depth + 1) nd hAl hdimsL, hAr⟩
      · match r with
        | .nil =>
          rw [placeLeaf_ge_nil hdim hlt]
          exact ⟨hdax, hAl, hattach⟩
        | .node rd rl rr =>
          rw [placeLeaf_ge_node hdim hlt]
          exact ⟨hdax, hAl, ihr (depth + 1) nd hAr hdimsR⟩

/-- The builder places every input node exactly once: id, coordinates and
tree tag of the built subtree's members are a permutation of the input's. -/
theorem build_strip_perm :
    ∀ (nodes : List NodeData) (depth : Nat) (parent : Option Nat),
      ((buildRootNode nodes depth parent).nodeList.map stripLinks).Perm
        (nodes.map stripLinks) := by
  intro nodes
  match nodes with
  | [] =>
    intro depth parent
    exact List.Perm.refl _
  | [d] =>
    intro depth parent
    exact List.Perm.refl _
  | d0 :: d1 :: rest =>
    intro depth parent
    rw [buildRootNode_cons2]
    have hm : (d0 :: d1 :: rest).length / 2 - 1
        < (sortByAxis (depth % d0.coords.length) (d0 :: d1 :: rest)).length := by
      rw [sortByAxis_length]
      simp only [List.length_cons]
      omega
    have hgd : (sortByAxis (depth % d0.coords.length) (d0 :: d1 :: rest)).getD
        ((d0 :: d1 :: rest).length / 2 - 1) default
        = (sortByAxis (depth % d0.coords.length) (d0 :: d1 :: rest))[
            (d0 :: d1 :: rest).length / 2 - 1] :=
      List.getD_eq_getElem _ _ hm
    have hsplit : sortByAxis (depth % d0.coords.length) (d0 :: d1 :: rest)
        = (sortByAxis (depth % d0.coords.length) (d0 :: d1 :: rest)).take
            ((d0 :: d1 :: rest).length / 2 - 1)
          ++ (sortByAxis (depth % d0.coords.length) (d0 :: d1 :: rest))[
              (d0 :: d1 :: rest).length / 2 - 1]
            :: (sortByAxis (depth % d0.coords.length) (d0 :: d1 :: rest)).drop
              ((d0 :: d1 :: rest).length / 2 - 1 + 1) := by
      conv_lhs =>
        rw [← List.take_append_drop ((d0 :: d1 :: rest).length / 2 - 1)
          (sortByAxis (depth % d0.coords.length) (d0 :: d1 :: rest)),
          List.drop_eq_getElem_cons hm]
    have ihl := build_strip_perm
      ((sortByAxis (depth % d0.coords.length) (d0 :: d1 :: rest)).take
        ((d0 :: d1 :: rest).length / 2 - 1)) (depth + 1)
      (some ((sortByAxis (depth % d0.coords.length) (d0 :: d1 :: rest)).getD
        ((d0 :: d1 :: rest).length / 2 - 1) default).nid)
    have ihr := build_strip_perm
      ((sortByAxis (depth % d0.coords.length) (d0 :: d1 :: rest)).drop
        ((d0 :: d1 :: rest).length / 2 - 1 + 1)) (depth + 1)
      (some ((sortByAxis (depth % d0.coords.length) (d0 :: d1 :: rest)).getD
        ((d0 :: d1 :: rest).length / 2 - 1) default).nid)
    have hperm := (sortByAxis_perm (depth % d0.coords.length) (d0 :: d1 :: rest)).map stripLinks
    rw [nodeList_node, List.map_append, List.map_append]
    refine List.Perm.trans (List.Perm.append (List.Perm.append ihl ihr) (List.Perm.refl _)) ?_
    refine List.Perm.trans ?_ hperm
    conv_rhs => rw [hsplit]
    rw [List.map_append, List.map_cons, hgd]
    rw [List.append_assoc]
    refine List.Perm.append_left _ ?_
    simp only [List.map_cons, List.map_nil, stripLinks]
    exact List.perm_append_comm
termination_by nodes => nodes.length
decreasing_by
  all_goals
    simp only [sortByAxis, List.length_take, List.length_drop,
      List.length_insertionSort, List.length_cons]
  all_goals omega

/-- Unfolding: `find` dimension mismatch. -/
theorem find_dimErr {d : NodeData} {l r : KD} {coords : List Coord}
    (hne : coords.length ≠ d.coords.length) :
    (KD.node d l r).find coords = .dimErr := by
  unfold KD.find
  rw [if_pos hne]

/-- Unfolding: `find` goes left into an absent child. -/
theorem find_lt_nil {d : NodeData} {r : KD} {coords : List Coord}
    (hlen : ¬ coords.length ≠ d.coords.length)
    (hlt : coords.getD d.axis 0 < d.coords.getD d.axis 0) :
    (KD.node d .nil r).find coords = .absent := by
  unfold KD.find
  rw [if_neg hlen, if_pos hlt]

/-- Unfolding: `find` recurses into the left child. -/
theorem find_lt_node {d ld : NodeData} {ll lr r : KD} {coords : List Coord}
    (hlen : ¬ coords.length ≠ d.coords.length)
    (hlt : coords.getD d.axis 0 < d.coords.getD d.axis 0) :
    (KD.node d (.node ld ll lr) r).find coords = (KD.node ld ll lr).find coords := by
  conv_lhs => unfold KD.find
  rw [if_neg hlen, if_pos hlt]

/-- Unfolding: `find` hits the node on full coordinate equality. -/
theorem find_found {d : NodeData} {l r : KD} {coords : List Coord}
    (hlen : ¬ coords.length ≠ d.coords.length)
    (hnlt : ¬ coords.getD d.axis 0 < d.coords.getD d.axis 0)
    (heq : (coords.getD d.axis 0 == d.coords.getD d.axis 0 && equal_fl coords d.coords) = true) :
    (KD.node d l r).find coords = .found d := by
  unfold KD.find
  rw [if_neg hlen, if_neg hnlt, if_pos heq]

/-- Unfolding: `find` falls through to an absent right child. -/
theorem find_ge_nil {d : NodeData} {l : KD} {coords : List Coord}
    (hlen : ¬ coords.length ≠ d.coords.length)
    (hnlt : ¬ coords.getD d.axis 0 < d.coords.getD d.axis 0)
    (hneq : (coords.getD d.axis 0 == d.coords.getD d.axis 0 && equal_fl coords d.coords) = false) :
    (KD.node d l .nil).find coords = .absent := by
  unfold KD.find
  rw [if_neg hlen, if_neg hnlt, if_neg (by rw [hneq]; exact Bool.false_ne_true)]

/-- Unfolding: `find` recurses into the right child. -/
theorem find_ge_node {d rd : NodeData} {l rl rr : KD} {coords : List Coord}
    (hlen : ¬ coords.length ≠ d.coords.length)
    (hnlt : ¬ coords.getD d.axis 0 < d.coords.getD d.axis 0)
    (hneq : (coords.getD d.axis 0 == d.coords.getD d.axis 0 && equal_fl coords d.coords) = false) :
    (KD.node d l (.node rd rl rr)).find coords = (KD.node rd rl rr).find coords := by
  conv_lhs => unfold KD.find
  rw [if_neg hlen, if_neg hnlt, if_neg (by rw [hneq]; exact Bool.false_ne_true)]

/-- On a subtree satisfying the structural invariant whose members have
pairwise distinct coordinate vectors, `find` returns exactly the member
record whose coordinates are queried. -/
theorem find_mem_found {k : Nat} :
    ∀ {t : KD}, Valid k t →
      (∀ a ∈ t.nodeList, ∀ b ∈ t.nodeList, a.coords = b.coords → a = b) →
      ∀ n ∈ t.nodeList, t.find n.coords = .found n := by
  intro t
  induction t with
  | nil =>
    intro _ _ n hn
    exact absurd hn (List.not_mem_nil n)
  | node d l r ihl ihr =>
    intro hv hinj n hn
    obtain ⟨hdims, hax, hls, hrs, hlm, hrm, hvl, hvr⟩ := hv
    have hself : d ∈ (KD.node d l r).nodeList := mem_nodeList_node.mpr (.inr (.inr rfl))
    have hnlen : n.coords.length = k := by
      rcases mem_nodeList_node.mp hn with hm | hm | hm
      · exact valid_allDims hvl n hm
      · exact valid_allDims hvr n hm
      · rw [hm]; exact hdims
    have hlen : ¬ n.coords.length ≠ d.coords.length := by
      rw [hnlen, hdims]
      exact not_ne_iff.mpr rfl
    by_cases hcoords : n.coords = d.coords
    · have hdn : n = d := hinj n hn d hself hcoords
      have hnlt : ¬ n.coords.getD d.axis 0 < d.coords.getD d.axis 0 := by
        rw [hcoords]
        exact lt_irrefl _
      have heq : (n.coords.getD d.axis 0 == d.coords.getD d.axis 0
          && equal_fl n.coords d.coords) = true := by
        rw [hcoords, (equal_fl_iff _ _).mpr rfl]
        simp
      rw [find_found hlen hnlt heq, hdn]
    · rcases mem_nodeList_node.mp hn with hm | hm | hm
      · -- n is in the left subtree: strictly smaller on the axis
        have hlt : n.coords.getD d.axis 0 < d.coords.getD d.axis 0 := hls n hm
        match l with
        | .nil => exact absurd hm (List.not_mem_nil n)
        | .node ld ll lr =>
          rw [find_lt_node hlen hlt]
          exact ihl hvl
            (fun a ha b hb => hinj a (mem_nodeList_node.mpr (.inl ha))
              b (mem_nodeList_node.mpr (.inl hb))) n hm
      · -- n is in the right subtree: greater-or-equal on the axis
        have hge : d.coords.getD d.axis 0 ≤ n.coords.getD d.axis 0 := hrs n hm
        have hnlt : ¬ n.coords.getD d.axis 0 < d.coords.getD d.axis 0 := not_lt.mpr hge
        have hneq : (n.coords.getD d.axis 0 == d.coords.getD d.axis 0
            && equal_fl n.coords d.coords) = false := by
          have : equal_fl n.coords d.coords = false := by
            rcases hfl : equal_fl n.coords d.coords with _ | _
            · rfl
            · exact absurd ((equal_fl_iff _ _).mp hfl) hcoords
          rw [this, Bool.and_false]
        match r with
        | .nil => exact absurd hm (List.not_mem_nil n)
        | .node rd rl rr =>
          rw [find_ge_node hlen hnlt hneq]
          exact ihr hvr
            (fun a ha b hb => hinj a (mem_nodeList_node.mpr (.inr (.inl ha)))
              b (mem_nodeList_node.mpr (.inr (.inl hb)))) n hm
      · exact absurd (by rw [hm]) hcoords

/-- A single node with the right dimension and axis is a valid subtree. -/
theorem valid_leaf {k : Nat} {d : NodeData} (hd : d.coords.length = k) (hax : d.axis < k) :
    Valid k (.node d .nil .nil) := by
  refine ⟨hd, hax, ?_, ?_, ?_, ?_, trivial, trivial⟩
  · intro x hx; exact absurd hx (List.not_mem_nil x)
  · intro x hx; exact absurd hx (List.not_mem_nil x)
  · intro c hc; cases hc
  · intro c hc; cases hc

/-- C1 counterexample: the four nodes of `exC1nodes` have pairwise distinct
coordinate vectors and the tree is produced by a single build, yet the
member with coordinates (1,0) is not returned by `find` - the claim that
`find(n.Coordinates)` returns every current member fails. -/
theorem claim_C1_counterexample :
    (⟨0, 1, [1, 0], some 1, some 0⟩ : NodeData) ∈ (BuildTree 0 exC1nodes).root.nodeList ∧
    exC1nodes.Pairwise (fun a b => a.coords ≠ b.coords) ∧
    (BuildTree 0 exC1nodes).find [1, 0] = .absent := by decide

/-- C7: the builder returns nil for an empty list, a leaf with cleared
children for a singleton, and otherwise sorts by the axis `depth mod k`,
makes the element at index `len/2 - 1` the subtree root, and recursively
builds the left subtree from exactly the elements before that index and the
right subtree from exactly the elements after it, at depth + 1; every input
node is placed exactly once (id, coordinates and tag are a permutation of
the input). -/
theorem claim_C7_builder {k : Nat} (_hk : 0 < k) :
    (∀ (depth : Nat) (parent : Option Nat), buildRootNode [] depth parent = .nil) ∧
    (∀ (d : NodeData) (depth : Nat) (parent : Option Nat),
       buildRootNode [d] depth parent =
         .node { d with axis := depth % d.coords.length, parent := parent } .nil .nil) ∧
    (∀ (d0 d1 : NodeData) (rest : List NodeData) (depth : Nat) (parent : Option Nat),
       (∀ x ∈ d0 :: d1 :: rest, x.coords.length = k) →
       buildRootNode (d0 :: d1 :: rest) depth parent =
         KD.node { (sortByAxis (depth % k) (d0 :: d1 :: rest)).getD
                     ((d0 :: d1 :: rest).length / 2 - 1) default with
                   axis := depth % k, parent := parent }
           (buildRootNode ((sortByAxis (depth % k) (d0 :: d1 :: rest)).take
               ((d0 :: d1 :: rest).length / 2 - 1)) (depth + 1)
             (some ((sortByAxis (depth % k) (d0 :: d1 :: rest)).getD
               ((d0 :: d1 :: rest).length / 2 - 1) default).nid))
           (buildRootNode ((sortByAxis (depth % k) (d0 :: d1 :: rest)).drop
               ((d0 :: d1 :: rest).length / 2 - 1 + 1)) (depth + 1)
             (some ((sortByAxis (depth % k) (d0 :: d1 :: rest)).getD
               ((d0 :: d1 :: rest).length / 2 - 1) default).nid))) ∧
    (∀ (nodes : List NodeData) (depth : Nat) (parent : Option Nat),
       ((buildRootNode nodes depth parent).nodeList.map stripLinks).Perm
         (nodes.map stripLinks)) := by
  refine ⟨fun _ _ => rfl, fun _ _ _ => rfl, ?_, build_strip_perm⟩
  intro d0 d1 rest depth parent hdims
  have hd0 : d0.coords.length = k := hdims d0 (List.mem_cons_self d0 _)
  rw [buildRootNode_cons2, hd0]

/-- C7 witness: the builder equation at a concrete 2-element 1-D list. -/
theorem claim_C7_builder_witness :
    buildRootNode [⟨0, 0, [5], none, none⟩, ⟨1, 0, [3], none, none⟩] 0 none =
      KD.node { (sortByAxis (0 % 1) [⟨0, 0, [5], none, none⟩, ⟨1, 0, [3], none, none⟩]).getD
                  (([⟨0, 0, [5], none, none⟩, ⟨1, 0, [3], none, none⟩] :
                    List NodeData).length / 2 - 1) default with
                axis := 0 % 1, parent := (none : Option Nat) }
        (buildRootNode ((sortByAxis (0 % 1)
            [⟨0, 0, [5], none, none⟩, ⟨1, 0, [3], none, none⟩]).take
            (([⟨0, 0, [5], none, none⟩, ⟨1, 0, [3], none, none⟩] :
              List NodeData).length / 2 - 1)) (0 + 1)
          (some ((sortByAxis (0 % 1)
              [⟨0, 0, [5], none, none⟩, ⟨1, 0, [3], none, none⟩]).getD
            (([⟨0, 0, [5], none, none⟩, ⟨1, 0, [3], none, none⟩] :
              List NodeData).length / 2 - 1) default).nid))
        (buildRootNode ((sortByAxis (0 % 1)
            [⟨0, 0, [5], none, none⟩, ⟨1, 0, [3], none, none⟩]).drop
            (([⟨0, 0, [5], none, none⟩, ⟨1, 0, [3], none, none⟩] :
              List NodeData).length / 2 - 1 + 1)) (0 + 1)
          (some ((sortByAxis (0 % 1)
              [⟨0, 0, [5], none, none⟩, ⟨1, 0, [3], none, none⟩]).getD
            (([⟨0, 0, [5], none, none⟩, ⟨1, 0, [3], none, none⟩] :
              List NodeData).length / 2 - 1) default).nid)) :=
  (@claim_C7_builder 1 (by decide)).2.2.1 ⟨0, 0, [5], none, none⟩ ⟨1, 0, [3], none, none⟩
    [] 0 none (by decide)

/-- The top of a built subtree carries the parent argument. -/
theorem build_top_parent (nodes : List NodeData) (depth : Nat) (parent : Option Nat) :
    ∀ c ∈ (buildRootNode nodes depth parent).topData, c.parent = parent := by
  match nodes with
  | [] => intro c hc; cases hc
  | [d] =>
    intro c hc
    simp only [buildRootNode, buildGo, KD.topData, Option.mem_def, Option.some.injEq] at hc
    subst hc
    rfl
  | d0 :: d1 :: rest =>
    rw [buildRootNode_cons2]
    intro c hc
    simp only [KD.topData, Option.mem_def, Option.some.injEq] at hc
    subst hc
    rfl

/-- The top of a subtree with the axis-depth relation carries the axis of
its depth. -/
theorem axisEqDepth_topData {k depth : Nat} {t : KD} (h : AxisEqDepth k depth t) :
    ∀ c ∈ t.topData, c.axis = depth % k := by
  match t with
  | .nil => intro c hc; cases hc
  | .node d l r =>
    intro c hc
    simp only [KD.topData, Option.mem_def, Option.some.injEq] at hc
    subst hc
    exact h.1

/-- Every member of a built subtree carries the coordinates of some input
node. -/
theorem build_mem_coords {nodes : List NodeData} {depth : Nat} {parent : Option Nat}
    {x : NodeData} (hx : x ∈ (buildRootNode nodes depth parent).nodeList) :
    ∃ y ∈ nodes, x.coords = y.coords := by
  have hperm := build_strip_perm nodes depth parent
  have hmap : stripLinks x ∈ (buildRootNode nodes depth parent).nodeList.map stripLinks :=
    List.mem_map_of_mem stripLinks hx
  have : stripLinks x ∈ nodes.map stripLinks := hperm.mem_iff.mp hmap
  obtain ⟨y, hy, he⟩ := List.mem_map.mp this
  refine ⟨y, hy, ?_⟩
  have := congrArg (fun p => p.2.1) he
  simpa [stripLinks] using this.symm

/-- Coordinate-equal records have equal axis keys. -/
theorem axisKey_congr {ax : Nat} {a b : NodeData} (h : a.coords = b.coords) :
    axisKey ax a = axisKey ax b := by
  unfold axisKey
  rw [h]

/-- One build level preserves the invariant: the sorted list is split at
the pivot, everything before it is strictly smaller on the axis (given
distinct keys), everything after it at least as large. -/
theorem build_valid_step {k : Nat} (_hk : 0 < k) (s : List NodeData) (m depth : Nat)
    (parent : Option Nat) (L R : KD)
    (hm : m < s.length)
    (hdims : ∀ x ∈ s, x.coords.length = k)
    (ax : Nat) (hax : ax < k)
    (hsorted : s.Pairwise fun a b => axisKey ax a ≤ axisKey ax b)
    (hndax : (s.map (axisKey ax)).Nodup)
    (hLmem : ∀ x ∈ L.nodeList, ∃ y ∈ s.take m, x.coords = y.coords)
    (hRmem : ∀ x ∈ R.nodeList, ∃ y ∈ s.drop (m + 1), x.coords = y.coords)
    (hLtop : ∀ c ∈ L.topData, c.axis = (depth + 1) % k ∧ c.parent = some (s.getD m default).nid)
    (hRtop : ∀ c ∈ R.topData, c.axis = (depth + 1) % k ∧ c.parent = some (s.getD m default).nid)
    (hvL : Valid k L) (hvR : Valid k R)
    (haxd : ax = depth % k) :
    Valid k (.node { s.getD m default with axis := ax, parent := parent } L R) := by
  have hgd : s.getD m default = s[m] := List.getD_eq_getElem _ _ hm
  have hmidmem : s.getD m default ∈ s := by
    rw [hgd]
    exact List.getElem_mem hm
  have hpair : s.Pairwise fun a b => axisKey ax a ≠ axisKey ax b :=
    List.pairwise_map.mp hndax
  have hboth := hsorted.and hpair
  have hmid_drop : s.getD m default ∈ s.drop m := by
    rw [hgd, List.drop_eq_getElem_cons hm]
    exact List.mem_cons_self _ _
  have hmid_take : s.getD m default ∈ s.take (m + 1) := by
    have h1 : m < (s.take (m + 1)).length := by
      rw [List.length_take]
      omega
    have h2 : (s.take (m + 1))[m] = s[m] := List.getElem_take _
    rw [hgd, ← h2]
    exact List.getElem_mem h1
  have hltmid : ∀ y ∈ s.take m, axisKey ax y < axisKey ax (s.getD m default) := by
    intro y hy
    have := hboth.rel_of_mem_take_of_mem_drop hy hmid_drop
    exact lt_of_le_of_ne this.1 this.2
  have hgtmid : ∀ y ∈ s.drop (m + 1), axisKey ax (s.getD m default) < axisKey ax y := by
    intro y hy
    have := hboth.rel_of_mem_take_of_mem_drop hmid_take hy
    exact lt_of_le_of_ne this.1 this.2
  refine ⟨hdims (s.getD m default) hmidmem, hax, ?_, ?_, ?_, ?_, hvL, hvR⟩
  · intro x hx
    obtain ⟨y, hy, he⟩ := hLmem x hx
    show axisKey ax x < axisKey ax _
    rw [axisKey_congr he]
    exact hltmid y hy
  · intro x hx
    obtain ⟨y, hy, he⟩ := hRmem x hx
    show axisKey ax _ ≤ axisKey ax x
    rw [axisKey_congr he]
    exact le_of_lt (hgtmid y hy)
  · intro c hc
    obtain ⟨ha, hp⟩ := hLtop c hc
    refine ⟨?_, hp⟩
    show c.axis = (ax + 1) % k
    rw [ha, haxd, mod_add_one_mod]
  · intro c hc
    obtain ⟨ha, hp⟩ := hRtop c hc
    refine ⟨?_, hp⟩
    show c.axis = (ax + 1) % k
    rw [ha, haxd, mod_add_one_mod]

/-- The builder establishes the structural invariant whenever the input
nodes have pairwise distinct values on every axis below k (so no duplicate
of a pivot's key can land in a left sub-list). -/
theorem build_valid {k : Nat} (hk : 0 < k) :
    ∀ (nodes : List NodeData) (depth : Nat) (parent : Option Nat),
      (∀ x ∈ nodes, x.coords.length = k) →
      (∀ ax, ax < k → (nodes.map (axisKey ax)).Nodup) →
      Valid k (buildRootNode nodes depth parent) := by
  intro nodes
  match nodes with
  | [] =>
    intro depth parent _ _
    exact trivial
  | [d] =>
    intro depth parent hdims _
    have hd : d.coords.length = k := hdims d (List.mem_singleton_self d)
    show Valid k (.node { d with axis := depth % d.coords.length, parent := parent } .nil .nil)
    refine valid_leaf hd ?_
    show depth % d.coords.length < k
    rw [hd]
    exact Nat.mod_lt _ hk
  | d0 :: d1 :: rest =>
    intro depth parent hdims hnd
    have hd0 : d0.coords.length = k := hdims d0 (List.mem_cons_self d0 _)
    have hsdims : ∀ x ∈ sortByAxis (depth % d0.coords.length) (d0 :: d1 :: rest),
        x.coords.length = k := fun x hx => hdims x (mem_sortByAxis.mp hx)
    have hax : depth % d0.coords.length < k := by
      rw [hd0]
      exact Nat.mod_lt _ hk
    have hmlt : (d0 :: d1 :: rest).length / 2 - 1
        < (sortByAxis (depth % d0.coords.length) (d0 :: d1 :: rest)).length := by
      rw [sortByAxis_length]
      simp only [List.length_cons]
      omega
    have hndS : ∀ ax', ax' < k →
        ((sortByAxis (depth % d0.coords.length) (d0 :: d1 :: rest)).map (axisKey ax')).Nodup :=
      fun ax' ha' =>
        ((sortByAxis_perm (depth % d0.coords.length) (d0 :: d1 :: rest)).map
          (axisKey ax')).nodup_iff.mpr (hnd ax' ha')
    have hdimsT : ∀ x ∈ (sortByAxis (depth % d0.coords.length) (d0 :: d1 :: rest)).take
        ((d0 :: d1 :: rest).length / 2 - 1), x.coords.length = k :=
      fun x hx => hsdims x (List.take_subset _ _ hx)
    have hdimsD : ∀ x ∈ (sortByAxis (depth % d0.coords.length) (d0 :: d1 :: rest)).drop
        ((d0 :: d1 :: rest).length / 2 - 1 + 1), x.coords.length = k :=
      fun x hx => hsdims x (List.drop_subset _ _ hx)
    have hndT : ∀ ax', ax' < k →
        (((sortByAxis (depth % d0.coords.length) (d0 :: d1 :: rest)).take
          ((d0 :: d1 :: rest).length / 2 - 1)).map (axisKey ax')).Nodup := by
      intro ax' ha'
      rw [List.map_take]
      exact (hndS ax' ha').sublist (List.take_sublist _ _)
    have hndD : ∀ ax', ax' < k →
        (((sortByAxis (depth % d0.coords.length) (d0 :: d1 :: rest)).drop
          ((d0 :: d1 :: rest).length / 2 - 1 + 1)).map (axisKey ax')).Nodup := by
      intro ax' ha'
      rw [List.map_drop]
      exact (hndS ax' ha').sublist (List.drop_sublist _ _)
    rw [buildRootNode_cons2]
    refine build_valid_step hk _ _ depth parent _ _ hmlt hsdims _ hax
      (sortByAxis_sorted _ _) (hndS _ hax) ?_ ?_ ?_ ?_ ?_ ?_ (by rw [hd0])
    · intro x hx
      exact build_mem_coords hx
    · intro x hx
      exact build_mem_coords hx
    · intro c hc
      exact ⟨axisEqDepth_topData (build_axisEqDepth hk _ (depth + 1) _ hdimsT) c hc,
        build_top_parent _ _ _ c hc⟩
    · intro c hc
      exact ⟨axisEqDepth_topData (build_axisEqDepth hk _ (depth + 1) _ hdimsD) c hc,
        build_top_parent _ _ _ c hc⟩
    · exact build_valid hk _ (depth + 1) _ hdimsT hndT
    · exact build_valid hk _ (depth + 1) _ hdimsD hndD
termination_by nodes => nodes.length
decreasing_by
  all_goals
    simp only [sortByAxis, List.length_take, List.length_drop,
      List.length_insertionSort, List.length_cons]
  all_goals omega

/-- Detaching the left child preserves the invariant. -/
theorem valid_drop_left {k : Nat} {d : NodeData} {l r : KD}
    (hv : Valid k (.node d l r)) : Valid k (.node d .nil r) := by
  obtain ⟨hdims, hax, _, hrs, _, hrm, _, hvr⟩ := hv
  refine ⟨hdims, hax, ?_, hrs, ?_, hrm, trivial, hvr⟩
  · intro x hx; exact absurd hx (List.not_mem_nil x)
  · intro c hc; cases hc

/-- Detaching the right child preserves the invariant. -/
theorem valid_drop_right {k : Nat} {d : NodeData} {l r : KD}
    (hv : Valid k (.node d l r)) : Valid k (.node d l .nil) := by
  obtain ⟨hdims, hax, hls, _, hlm, _, hvl, _⟩ := hv
  refine ⟨hdims, hax, hls, ?_, hlm, ?_, hvl, trivial⟩
  · intro x hx; exact absurd hx (List.not_mem_nil x)
  · intro c hc; cases hc

/-- Clearing the top parent pointer preserves the invariant (the invariant
never constrains a subtree root's own parent field). -/
theorem clearParent_valid {k : Nat} {t : KD} (hv : Valid k t) : Valid k t.clearParent := by
  match t with
  | .nil => exact trivial
  | .node d l r =>
    obtain ⟨hdims, hax, hls, hrs, hlm, hrm, hvl, hvr⟩ := hv
    exact ⟨hdims, hax, hls, hrs, hlm, hrm, hvl, hvr⟩

/-- Top record after clearing the parent pointer. -/
theorem clearParent_topData {d : NodeData} {l r : KD} :
    (KD.node d l r).clearParent.topData = some { d with parent := none } := rfl

/-- Unfolding equations of the remove cascade. -/
theorem readd_nil_nil (host : KD) : readdChildren host .nil .nil = (none, host) := rfl

/-- Unfolding: only a right child to re-add. -/
theorem readd_nil_node (host : KD) (d : NodeData) (l r : KD) :
    readdChildren host .nil (.node d l r) = nodeAdd host (.node d l r) := rfl

/-- Unfolding: the left re-add fails (Go panics). -/
theorem readd_node_err {host : KD} {nld : NodeData} {nll nlr : KD} (cr : KD)
    {e : AddErr} {h : KD} (hna : nodeAdd host (.node nld nll nlr) = (some e, h)) :
    readdChildren host (.node nld nll nlr) cr = (some e, h) := by
  simp only [readdChildren]
  rw [hna]

/-- Unfolding: left re-add succeeds, no right child. -/
theorem readd_node_ok_nil {host : KD} {nld : NodeData} {nll nlr : KD}
    {h : KD} (hna : nodeAdd host (.node nld nll nlr) = (none, h)) :
    readdChildren host (.node nld nll nlr) .nil = (none, h) := by
  simp only [readdChildren]
  rw [hna]

/-- Unfolding: left re-add succeeds, then the right child is re-added. -/
theorem readd_node_ok_node {host : KD} {nld nrd : NodeData} {nll nlr nrl nrr : KD}
    {h : KD} (hna : nodeAdd host (.node nld nll nlr) = (none, h)) :
    readdChildren host (.node nld nll nlr) (.node nrd nrl nrr)
      = nodeAdd h (.node nrd nrl nrr) := by
  simp only [readdChildren]
  rw [hna]

/-- The remove cascade at a parent whose slots hold the removed node's
subtrees: no error, invariant preserved, members drawn from the host and
the two subtrees, top record unchanged. -/
theorem readdChildren_props {k : Nat} (hk : 0 < k) {host cl cr : KD} {d : NodeData}
    (htop : host.topData = some d) (hv : Valid k host) (hd : d.coords.length = k)
    (hcl : ∀ y ∈ cl.nodeList, y.coords.length = k)
    (hcr : ∀ y ∈ cr.nodeList, y.coords.length = k) :
    (readdChildren host cl cr).1 = none ∧ Valid k (readdChildren host cl cr).2 ∧
    (∀ x ∈ (readdChildren host cl cr).2.nodeList, x ∈ host.nodeList ∨
      (∃ y ∈ cl.nodeList, x.coords = y.coords) ∨ (∃ y ∈ cr.nodeList, x.coords = y.coords)) ∧
    (readdChildren host cl cr).2.topData = some d := by
  match cl with
  | .nil =>
    match cr with
    | .nil =>
      rw [readd_nil_nil]
      exact ⟨rfl, hv, fun x hx => .inl hx, htop⟩
    | .node crd crl crr =>
      rw [readd_nil_node]
      refine ⟨nodeAdd_fst_none _ host d crd crl crr rfl htop hd hcr, ?_, ?_, ?_⟩
      · exact nodeAdd_valid hk _ host d htop hv (.inl hcr)
      · intro x hx
        rcases nodeAdd_mem _ host x hx with hm | hm
        · exact .inl hm
        · exact .inr (.inr hm)
      · exact nodeAdd_topData _ host htop
  | .node cld cll clr =>
    rcases hna : nodeAdd host (.node cld cll clr) with ⟨e, h1⟩
    have he : e = none := by
      have := nodeAdd_fst_none _ host d cld cll clr rfl htop hd hcl
      rw [hna] at this
      exact this
    subst he
    have hv1 : Valid k h1 := by
      have := nodeAdd_valid hk (.node cld cll clr) host d htop hv (.inl hcl)
      rw [hna] at this
      exact this
    have ht1 : h1.topData = some d := by
      have := nodeAdd_topData (.node cld cll clr) host htop
      rw [hna] at this
      exact this
    have hm1 : ∀ x ∈ h1.nodeList, x ∈ host.nodeList ∨
        ∃ y ∈ (KD.node cld cll clr).nodeList, x.coords = y.coords := by
      intro x hx
      have := nodeAdd_mem (.node cld cll clr) host x (by rw [hna]; exact hx)
      exact this
    match cr with
    | .nil =>
      rw [readd_node_ok_nil hna]
      refine ⟨rfl, hv1, ?_, ht1⟩
      intro x hx
      rcases hm1 x hx with hm | hm
      · exact .inl hm
      · exact .inr (.inl hm)
    | .node crd crl crr =>
      rw [readd_node_ok_node hna]
      refine ⟨nodeAdd_fst_none _ h1 d crd crl crr rfl ht1 hd hcr, ?_, ?_, ?_⟩
      · exact nodeAdd_valid hk _ h1 d ht1 hv1 (.inl hcr)
      · intro x hx
        rcases nodeAdd_mem _ h1 x hx with hm | hm
        · rcases hm1 x hm with hm2 | hm2
          · exact .inl hm2
          · exact .inr (.inl hm2)
        · exact .inr (.inr hm)
      · exact nodeAdd_topData _ h1 ht1

/-- Unfolding: non-root removal search at a nil subtree. -/
theorem rb_nil (nid : Nat) : removeBelow .nil nid = (false, false, .nil) := rfl

/-- Unfolding: the removed node is the left child. -/
theorem rb_left {d ld : NodeData} {ll lr r : KD} {nid : Nat} (hl : ld.nid = nid) :
    removeBelow (.node d (.node ld ll lr) r) nid =
      (true, (readdChildren (.node d .nil r) ll lr).1.isSome,
        (readdChildren (.node d .nil r) ll lr).2) := by
  simp only [removeBelow]
  rw [if_pos (by simp [KD.topData, hl])]


/-- Unfolding: the removed node is the right child. -/
theorem rb_right {d rd : NodeData} {l rl rr : KD} {nid : Nat}
    (hcl : ¬ l.topData.map NodeData.nid = some nid) (hr : rd.nid = nid) :
    removeBelow (.node d l (.node rd rl rr)) nid =
      (true, (readdChildren (.node d l .nil) rl rr).1.isSome,
        (readdChildren (.node d l .nil) rl rr).2) := by
  simp only [removeBelow]
  rw [if_neg hcl, if_pos (by simp [KD.topData, hr])]

/-- Unfolding: the removed node was found deeper in the left subtree. -/
theorem rb_rec_found {d : NodeData} {l r : KD} {nid : Nat} {p : Bool} {l2 : KD}
    (hcl : ¬ l.topData.map NodeData.nid = some nid)
    (hcr : ¬ r.topData.map NodeData.nid = some nid)
    (hrl : removeBelow l nid = (true, p, l2)) :
    removeBelow (.node d l r) nid = (true, p, .node d l2 r) := by
  simp only [removeBelow]
  rw [if_neg hcl, if_neg hcr, hrl]

/-- Unfolding: the left subtree does not hold the node; recurse right. -/
theorem rb_rec_right {d : NodeData} {l r : KD} {nid : Nat} {p0 fr pr : Bool} {l2 r2 : KD}
    (hcl : ¬ l.topData.map NodeData.nid = some nid)
    (hcr : ¬ r.topData.map NodeData.nid = some nid)
    (hrl : removeBelow l nid = (false, p0, l2))
    (hrr : removeBelow r nid = (fr, pr, r2)) :
    removeBelow (.node d l r) nid = (fr, pr, .node d l r2) := by
  simp only [removeBelow]
  rw [if_neg hcl, if_neg hcr, hrl, hrr]

/-- Non-root removal never panics on a valid subtree, preserves the
invariant, only keeps (coordinates of) old members, and leaves the top
record unchanged. -/
theorem removeBelow_props {k : Nat} (hk : 0 < k) :
    ∀ (t : KD) (nid : Nat), Valid k t →
      (removeBelow t nid).2.1 = false ∧ Valid k (removeBelow t nid).2.2 ∧
      (∀ x ∈ (removeBelow t nid).2.2.nodeList, ∃ y ∈ t.nodeList, x.coords = y.coords) ∧
      (removeBelow t nid).2.2.topData = t.topData := by
  intro t
  induction t with
  | nil =>
    intro nid _
    rw [rb_nil]
    exact ⟨rfl, trivial, fun x hx => absurd hx (List.not_mem_nil x), rfl⟩
  | node d l r ihl ihr =>
    intro nid hv
    obtain ⟨hdims, hax, hls, hrs, hlm, hrm, hvl, hvr⟩ := id hv
    by_cases hcl : l.topData.map NodeData.nid = some nid
    · match l, hcl with
      | .node ld ll lr, hcl =>
        have hlid : ld.nid = nid := by
          simpa [KD.topData] using hcl
        rw [rb_left hlid]
        have hprops := readdChildren_props hk (rfl : (KD.node d .nil r).topData = some d)
          (valid_drop_left hv) hdims
          (fun y hy => valid_allDims hvl y (mem_nodeList_node.mpr (.inl hy)))
          (fun y hy => valid_allDims hvl y (mem_nodeList_node.mpr (.inr (.inl hy))))
        refine ⟨by rw [hprops.1]; rfl, hprops.2.1, ?_, by rw [hprops.2.2.2]; rfl⟩
        intro x hx
        rcases hprops.2.2.1 x hx with hm | hm | hm
        · rcases mem_nodeList_node.mp hm with hm2 | hm2 | hm2
          · exact absurd hm2 (List.not_mem_nil x)
          · exact ⟨x, mem_nodeList_node.mpr (.inr (.inl hm2)), rfl⟩
          · exact ⟨x, mem_nodeList_node.mpr (.inr (.inr hm2)), rfl⟩
        · obtain ⟨y, hy, he⟩ := hm
          exact ⟨y, mem_nodeList_node.mpr
            (.inl (mem_nodeList_node.mpr (.inl hy))), he⟩
        · obtain ⟨y, hy, he⟩ := hm
          exact ⟨y, mem_nodeList_node.mpr
            (.inl (mem_nodeList_node.mpr (.inr (.inl hy)))), he⟩
    · by_cases hcr : r.topData.map NodeData.nid = some nid
      · match r, hcr with
        | .node rd rl rr, hcr =>
          have hrid : rd.nid = nid := by
            simpa [KD.topData] using hcr
          rw [rb_right hcl hrid]
          have hprops := readdChildren_props hk (rfl : (KD.node d l .nil).topData = some d)
            (valid_drop_right hv) hdims
            (fun y hy => valid_allDims hvr y (mem_nodeList_node.mpr (.inl hy)))
            (fun y hy => valid_allDims hvr y (mem_nodeList_node.mpr (.inr (.inl hy))))
          refine ⟨by rw [hprops.1]; rfl, hprops.2.1, ?_, by rw [hprops.2.2.2]; rfl⟩
          intro x hx
          rcases hprops.2.2.1 x hx with hm | hm | hm
          · rcases mem_nodeList_node.mp hm with hm2 | hm2 | hm2
            · exact ⟨x, mem_nodeList_node.mpr (.inl hm2), rfl⟩
            · exact absurd hm2 (List.not_mem_nil x)
            · exact ⟨x, mem_nodeList_node.mpr (.inr (.inr hm2)), rfl⟩
          · obtain ⟨y, hy, he⟩ := hm
            exact ⟨y, mem_nodeList_node.mpr
              (.inr (.inl (mem_nodeList_node.mpr (.inl hy)))), he⟩
          · obtain ⟨y, hy, he⟩ := hm
            exact ⟨y, mem_nodeList_node.mpr
              (.inr (.inl (mem_nodeList_node.mpr (.inr (.inl hy))))), he⟩
      · rcases hrl : removeBelow l nid with ⟨fl, pl, l2⟩
        have ihlr := ihl nid hvl
        rw [hrl] at ihlr
        obtain ⟨hpl, hvl2, hmeml, htopl⟩ := ihlr
        match fl with
        | true =>
          rw [rb_rec_found hcl hcr hrl]
          refine ⟨hpl, ?_, ?_, rfl⟩
          · refine ⟨hdims, hax, ?_, hrs, ?_, hrm, hvl2, hvr⟩
            · intro x hx
              obtain ⟨y, hy, he⟩ := hmeml x hx
              rw [show axisKey d.axis x = axisKey d.axis y from axisKey_congr he]
              exact hls y hy
            · intro c hc
              rw [htopl] at hc
              exact hlm c hc
          · intro x hx
            rcases mem_nodeList_node.mp hx with hm | hm | hm
            · obtain ⟨y, hy, he⟩ := hmeml x hm
              exact ⟨y, mem_nodeList_node.mpr (.inl hy), he⟩
            · exact ⟨x, mem_nodeList_node.mpr (.inr (.inl hm)), rfl⟩
            · exact ⟨x, mem_nodeList_node.mpr (.inr (.inr hm)), rfl⟩
        | false =>
          rcases hrr : removeBelow r nid with ⟨fr, pr, r2⟩
          have ihrr := ihr nid hvr
          rw [hrr] at ihrr
          obtain ⟨hpr, hvr2, hmemr, htopr⟩ := ihrr
          rw [rb_rec_right hcl hcr hrl hrr]
          refine ⟨hpr, ?_, ?_, rfl⟩
          · refine ⟨hdims, hax, hls, ?_, hlm, ?_, hvl, hvr2⟩
            · intro x hx
              obtain ⟨y, hy, he⟩ := hmemr x hx
              rw [show axisKey d.axis x = axisKey d.axis y from axisKey_congr he]
              exact hrs y hy
            · intro c hc
              rw [htopr] at hc
              exact hrm c hc
          · intro x hx
            rcases mem_nodeList_node.mp hx with hm | hm | hm
            · exact ⟨x, mem_nodeList_node.mpr (.inl hm), rfl⟩
            · obtain ⟨y, hy, he⟩ := hmemr x hm
              exact ⟨y, mem_nodeList_node.mpr (.inr (.inl hy)), he⟩
            · exact ⟨x, mem_nodeList_node.mpr (.inr (.inr hm)), rfl⟩

/-- C1 amended: on every tree satisfying the structural invariants (as
established by builds with pairwise distinct per-axis values and by
inserts; a build with duplicate values on a split axis can break them, see
the counterexample) whose members have pairwise distinct coordinate
vectors, the exact-point lookup find(n.Coordinates) returns the very node
record n for every member n. -/
theorem claim_C1_amended {k : Nat} (t : GoTree) (hv : Valid k t.root)
    (hinj : ∀ a ∈ t.root.nodeList, ∀ b ∈ t.root.nodeList, a.coords = b.coords → a = b)
    (n : NodeData) (hn : n ∈ t.root.nodeList) :
    t.find n.coords = .found n :=
  find_mem_found hv hinj n hn

/-- C1 amended witness: a concrete valid one-node 1-D tree. -/
theorem claim_C1_amended_witness :
    GoTree.find ⟨9, .node ⟨0, 0, [7], none, none⟩ .nil .nil⟩ [7]
      = .found ⟨0, 0, [7], none, none⟩ :=
  @claim_C1_amended 1 ⟨9, .node ⟨0, 0, [7], none, none⟩ .nil .nil⟩
    (valid_leaf rfl (by decide)) (by decide) ⟨0, 0, [7], none, none⟩ (by decide)

/-- C3 counterexample: building from a list with duplicate values on the
split axis produces a tree on which `validate` reports an error (the claim
says validate returns ok after every completed build). -/
theorem claim_C3_counterexample :
    (BuildTree 1 exC3nodes).validateRes = some false := by decide

/-- C4: removing the childless root does NOT empty the tree. `remove`
returns nil both for "no new root" and for "tree now empty", and
`Tree.Remove` only updates `Root` on a non-nil result, so the root stays,
`size()` remains 1 and the size does not decrease. This contradicts the
spec ("If no children: the Tree becomes empty") and the code's own comment
("means empty tree"). -/
theorem claim_C4_root_remove_bug :
    exC4tree.removeNode ⟨0, 0, [7, 7], none, some 5⟩ = (none, exC4tree) ∧
    exC4tree.root ≠ .nil ∧ exC4tree.root.size = 1 := by decide

/-- C5: a node adopted via `Tree.Add` never gets its `tree` tag set (only
`BuildTree` sets it), so a subsequent `Tree.Remove` of that member fails
with NotAMember - contradicting `Remove`'s own documentation ("Returns an
error if Node isn't a member of this Tree"). -/
theorem claim_C5_add_then_remove_fails :
    (⟨9, 0, [1], none, none⟩ : NodeData) ∈ exC5tree.root.nodeList ∧
    (exC5tree.removeNode ⟨9, 0, [1], none, none⟩).1 = some .notAMember ∧
    (exC5tree.removeNode ⟨9, 0, [1], none, none⟩).2 = exC5tree := by decide

/-- C6 counterexample: inserting a subtree with mixed coordinate lengths
returns DimensionMismatch AFTER having attached the 1-D left child: the
tree is modified (size 2, not 1) although a recoverable error is returned,
and not every argument node was attached. -/
theorem claim_C6_counterexample :
    (exC6host.add exC6arg).1 = some .dimensionMismatch ∧
    (exC6host.add exC6arg).2 ≠ exC6host ∧
    (exC6host.add exC6arg).2.root.size = 2 := by decide

/-- C8 counterexample: removing the root of a valid 3-node tree promotes
the right child, which keeps its old axis 1; the new root's axis is 1, not
0 = depth mod k, and the operation reports no error. -/
theorem claim_C8_counterexample :
    (exC8tree.removeNode ⟨0, 0, [0, 9], none, some 0⟩).1 = none ∧
    ((exC8tree.removeNode ⟨0, 0, [0, 9], none, some 0⟩).2.root.topData.map NodeData.axis) = some 1 := by
  decide

/-- C8 amended: after a build, every node's axis equals its depth mod k
(depth counted from the argument depth, 0 at the root), and inserting a
leaf preserves that relation; but a remove that promotes a child to the
root, or an insert into an empty tree of a node carrying a stale axis,
retains the node's previous axis, so the root's axis can be nonzero
afterwards (see the counterexample). -/
theorem claim_C8_amended {k : Nat} (hk : 0 < k) :
    (∀ (nodes : List NodeData) (depth : Nat) (parent : Option Nat),
       (∀ x ∈ nodes, x.coords.length = k) →
       AxisEqDepth k depth (buildRootNode nodes depth parent)) ∧
    (∀ (h : KD) (depth : Nat) (nd : NodeData), AxisEqDepth k depth h → AllDims k h →
       AxisEqDepth k depth ((placeLeaf h nd).2)) :=
  ⟨build_axisEqDepth hk, placeLeaf_axisEqDepth⟩

/-- C8 amended witness: a concrete 2-D build and a concrete leaf insertion,
each with the axis-depth relation. -/
theorem claim_C8_amended_witness :
    AxisEqDepth 2 0 (buildRootNode [⟨0, 0, [1, 2], none, none⟩] 0 none) ∧
    AxisEqDepth 2 0 ((placeLeaf (buildRootNode [⟨0, 0, [1, 2], none, none⟩] 0 none)
      ⟨1, 0, [3, 4], none, none⟩).2) :=
  ⟨(claim_C8_amended (by decide)).1 [⟨0, 0, [1, 2], none, none⟩] 0 none (by decide),
   (claim_C8_amended (by decide)).2 (buildRootNode [⟨0, 0, [1, 2], none, none⟩] 0 none) 0
     ⟨1, 0, [3, 4], none, none⟩
     ((claim_C8_amended (by decide)).1 [⟨0, 0, [1, 2], none, none⟩] 0 none (by decide))
     (by decide)⟩

/-- C9 counterexample: on the empty tree, `findRange` with a restriction
keyed by an out-of-range axis returns no error at all (`findRange` returns
(nil, nil) for a nil node before any key is checked), contradicting the
claim that AxisOutOfRange is returned for every tree including the empty
one. -/
theorem claim_C9_counterexample :
    GoTree.findRange ⟨0, .nil⟩ [(7, ⟨0, 1⟩)] = ([], none) := by decide

/-- C6 amended: a remove failing with NotAMember leaves the tree unmodified
(the guard precedes all mutation), and an insert of a CHILDLESS node that
returns a recoverable error leaves the tree unmodified; a subtree insert,
however, may attach part of the argument before erroring (see the
counterexample). The readers find and find_range do not modify the tree. -/
theorem claim_C6_amended :
    (∀ (t : GoTree) (n : NodeData), (t.removeNode n).1 = some .notAMember →
       (t.removeNode n).2 = t) ∧
    (∀ (t : GoTree) (nd : NodeData) (e : AddErr),
       (t.add (.node nd .nil .nil)).1 = some e → (t.add (.node nd .nil .nil)).2 = t) := by
  constructor
  · intro t n he
    rcases hr : t.removeNode n with ⟨e1, t1⟩
    rw [hr] at he
    simp only at he
    subst he
    show t1 = t
    unfold GoTree.removeNode at hr
    split at hr
    · injection hr with h1 h2
      exact h2.symm
    · split at hr
      · split at hr
        · injection hr with h1 h2
          exact h2.symm
        · split at hr
          · injection hr with h1 h2
            exact h2.symm
          · split at hr
            · injection hr with h1 h2
              exact h2.symm
            · injection hr with h1 h2
              cases h1
            · injection hr with h1 h2
              cases h1
            · split at hr
              · injection hr with h1 h2
                cases h1
              · injection hr with h1 h2
                cases h1
      · split at hr
        · injection hr with h1 h2
          cases h1
        · injection hr with h1 h2
          cases h1
  · intro t nd e he
    rcases hr : t.add (.node nd .nil .nil) with ⟨e1, t1⟩
    rw [hr] at he
    simp only at he
    subst he
    show t1 = t
    unfold GoTree.add at hr
    split at hr
    · injection hr with h1 h2
      cases h1
    · rcases hna : nodeAdd t.root (.node nd .nil .nil) with ⟨e2, rt2⟩
      rw [hna] at hr
      injection hr with h1 h2
      subst h1
      have hrt : rt2 = t.root := by
        have := @nodeAdd_leaf_err_unchanged t.root nd e (by rw [hna])
        rw [hna] at this
        exact this
      subst h2
      rw [hrt]

/-- C9 amended: on a NONEMPTY tree, a restriction map whose first entry (in
iteration order) is keyed by an axis outside [0, k) makes findRange return
an error and no results; the empty tree returns no error (counterexample),
and an invalid key behind a violated restriction can also escape detection
because the per-node check breaks early. -/
theorem claim_C9_amended (t : GoTree) (d : NodeData) (l r : KD) (a : Int) (rg : Range)
    (rest : Ranges) (hroot : t.root = .node d l r)
    (hbad : a < 0 ∨ (d.coords.length : Int) ≤ a) :
    ∃ e, t.findRange ((a, rg) :: rest) = ([], some e) := by
  have hc : ∃ e0, checkRanges d ((a, rg) :: rest) = .error e0 := by
    by_cases hbig : (d.coords.length : Int) ≤ a
    · refine ⟨.axisTooBig, ?_⟩
      unfold checkRanges
      rw [if_pos hbig]
    · have hneg : a < 0 := by
        rcases hbad with h | h
        · exact h
        · exact absurd h hbig
      refine ⟨.axisNegative, ?_⟩
      unfold checkRanges
      rw [if_neg hbig, if_pos hneg]
  obtain ⟨e0, hc⟩ := hc
  refine ⟨e0, ?_⟩
  show t.root.findRange ((a, rg) :: rest) = ([], some e0)
  rw [hroot]
  conv_lhs => unfold KD.findRange
  rw [hc]

/-- C9 amended witness: a 1-D single-node tree and the out-of-range axis 3. -/
theorem claim_C9_witness :
    ∃ e, GoTree.findRange ⟨0, .node ⟨0, 0, [5], none, none⟩ .nil .nil⟩ [(3, ⟨0, 0⟩)]
      = ([], some e) :=
  claim_C9_amended ⟨0, .node ⟨0, 0, [5], none, none⟩ .nil .nil⟩ ⟨0, 0, [5], none, none⟩
    .nil .nil 3 ⟨0, 0⟩ [] rfl (by decide)

/-- C6 amended witness: a NotAMember remove and a childless
DimensionMismatch insert, each leaving the concrete tree unchanged. -/
theorem claim_C6_witness :
    (GoTree.removeNode ⟨0, .node ⟨1, 0, [4], none, none⟩ .nil .nil⟩
        ⟨1, 0, [4], none, none⟩).2 = ⟨0, .node ⟨1, 0, [4], none, none⟩ .nil .nil⟩ ∧
    (GoTree.add ⟨2, .node ⟨1, 0, [4], none, none⟩ .nil .nil⟩
        (.node ⟨5, 0, [1, 2], none, none⟩ .nil .nil)).2
      = ⟨2, .node ⟨1, 0, [4], none, none⟩ .nil .nil⟩ :=
  ⟨claim_C6_amended.1 ⟨0, .node ⟨1, 0, [4], none, none⟩ .nil .nil⟩ ⟨1, 0, [4], none, none⟩
      (by decide),
   claim_C6_amended.2 ⟨2, .node ⟨1, 0, [4], none, none⟩ .nil .nil⟩ ⟨5, 0, [1, 2], none, none⟩
      .dimensionMismatch (by decide)⟩

/-- C10: `(*Tree).Find` on an empty tree calls `t.Root.find(coords)` with a
nil root, and `(*Node).find` reads `n.Coordinates` without a nil guard, so
the call dereferences the nil root and panics for every query vector -
contradicting the function's own documentation ("Returns (nil, nil) if no
node matching coords found"). -/
theorem claim_C10_empty_find_panics (coords : List Coord) :
    GoTree.find ⟨0, .nil⟩ coords = .panics := rfl

/-- C10 witness: the panic at the concrete query vector (0,0). -/
theorem claim_C10_witness : GoTree.find ⟨0, .nil⟩ [0, 0] = .panics :=
  claim_C10_empty_find_panics [0, 0]

/-- Tagging rewrites only the `tree` field of every member record. -/
theorem setTreeTag_nodeList (tid : Nat) :
    ∀ (t : KD), (t.setTreeTag tid).nodeList
      = t.nodeList.map (fun d => { d with tree := some tid }) := by
  intro t
  induction t with
  | nil => rfl
  | node d l r ihl ihr =>
    show (l.setTreeTag tid).nodeList ++ (r.setTreeTag tid).nodeList
        ++ [{ d with tree := some tid }] = _
    rw [ihl, ihr]
    simp [KD.nodeList, List.map_append]

/-- Tagging rewrites only the `tree` field of the top record. -/
theorem setTreeTag_topData (tid : Nat) (t : KD) :
    (t.setTreeTag tid).topData = t.topData.map (fun d => { d with tree := some tid }) := by
  cases t <;> rfl

/-- Tagging preserves the structural invariant (the invariant never reads
the `tree` field). -/
theorem setTreeTag_valid {k : Nat} (tid : Nat) :
    ∀ {t : KD}, Valid k t → Valid k (t.setTreeTag tid) := by
  intro t
  induction t with
  | nil => intro _; exact trivial
  | node d l r ihl ihr =>
    intro hv
    obtain ⟨hdims, hax, hls, hrs, hlm, hrm, hvl, hvr⟩ := id hv
    refine ⟨hdims, hax, ?_, ?_, ?_, ?_, ihl hvl, ihr hvr⟩
    · intro x hx
      rw [setTreeTag_nodeList] at hx
      obtain ⟨y, hy, rfl⟩ := List.mem_map.mp hx
      exact hls y hy
    · intro x hx
      rw [setTreeTag_nodeList] at hx
      obtain ⟨y, hy, rfl⟩ := List.mem_map.mp hx
      exact hrs y hy
    · intro c hc
      rw [setTreeTag_topData] at hc
      obtain ⟨c0, hc0, rfl⟩ := Option.map_eq_some'.mp (Option.mem_def.mp hc)
      exact hlm c0 (Option.mem_def.mpr hc0)
    · intro c hc
      rw [setTreeTag_topData] at hc
      obtain ⟨c0, hc0, rfl⟩ := Option.map_eq_some'.mp (Option.mem_def.mp hc)
      exact hrm c0 (Option.mem_def.mpr hc0)

/-- Evaluation of `Tree.Add` on a rooted tree: delegate to the root's
`add`. -/
theorem goTreeAdd_eq (tid : Nat) (d : NodeData) (l r new : KD) :
    GoTree.add ⟨tid, .node d l r⟩ new
      = ((nodeAdd (.node d l r) new).1, ⟨tid, (nodeAdd (.node d l r) new).2⟩) := by
  show (match nodeAdd (KD.node d l r) new with
        | (e, rt2) => ((e, ⟨tid, rt2⟩) : Option AddErr × GoTree))
      = ((nodeAdd (.node d l r) new).1, ⟨tid, (nodeAdd (.node d l r) new).2⟩)
  rcases h : nodeAdd (.node d l r) new with ⟨e, rt2⟩
  rfl

/-- Inserting into a rooted tree whose root is a genuine tree root (nil
parent pointer) keeps the structural invariant: nodes of the wrong
dimension are filtered by the guard, the rest are placed at valid leaf
positions. -/
theorem treeAdd_validateOk {k : Nat} (hk : 0 < k) (tid : Nat) (d : NodeData) (l r : KD)
    (new : KD) (hv : Valid k (.node d l r)) (hroot : d.parent = none) :
    ((GoTree.add ⟨tid, .node d l r⟩ new).2).root.validateOk = true := by
  rw [goTreeAdd_eq]
  exact validateOk_of_valid (nodeAdd_valid hk new (.node d l r) d rfl hv (.inr hroot))

/-- `Tree.Remove` on a tree with a valid root never panics and preserves
the structural invariant: the guard and the childless-root branch leave the
tree unchanged, promotions clear the parent pointer, and re-insertion of
the removed node's subtrees happens at a host whose top parent pointer is
nil, so no dimension guard can fire and `add` preserves validity. -/
theorem removeNode_props {k : Nat} (hk : 0 < k) (t : GoTree) (n : NodeData)
    (hv : Valid k t.root) :
    (t.removeNode n).1 ≠ some .panics ∧ Valid k ((t.removeNode n).2).root := by
  obtain ⟨tid, root⟩ := t
  have hv' : Valid k root := hv
  rcases hr : GoTree.removeNode ⟨tid, root⟩ n with ⟨e, t2⟩
  unfold GoTree.removeNode at hr
  dsimp only at hr
  split at hr
  · injection hr with h1 h2
    subst h1
    subst h2
    exact ⟨by simp, hv'⟩
  · split at hr
    · split at hr
      · injection hr with h1 h2
        subst h1
        subst h2
        exact ⟨by simp, hv'⟩
      · split at hr
        · injection hr with h1 h2
          subst h1
          subst h2
          exact ⟨by simp, hv'⟩
        · split at hr
          · injection hr with h1 h2
            subst h1
            subst h2
            exact ⟨by simp, hv'⟩
          · injection hr with h1 h2
            subst h1
            subst h2
            exact ⟨by simp, clearParent_valid hv'.2.2.2.2.2.2.1⟩
          · injection hr with h1 h2
            subst h1
            subst h2
            exact ⟨by simp, clearParent_valid hv'.2.2.2.2.2.2.2⟩
          · rename_i ld ll lr rd rl rr
            split at hr
            · rename_i e2 h2 heq
              have hnone := @nodeAdd_fst_none k (KD.node ld ll lr)
                ((KD.node rd rl rr).clearParent) { rd with parent := none } ld ll lr
                rfl rfl hv'.2.2.2.2.2.2.2.1 (valid_allDims hv'.2.2.2.2.2.2.1)
              rw [heq] at hnone
              simp at hnone
            · rename_i h2 heq
              injection hr with h1 h2'
              subst h1
              subst h2'
              refine ⟨by simp, ?_⟩
              have hval := nodeAdd_valid hk (KD.node ld ll lr)
                ((KD.node rd rl rr).clearParent) { rd with parent := none }
                rfl (clearParent_valid hv'.2.2.2.2.2.2.2) (.inr rfl)
              rw [heq] at hval
              exact hval
    · have hprops := removeBelow_props hk root n.nid hv'
      split at hr
      · rename_i f h heq
        rw [heq] at hprops
        simp at hprops
      · rename_i f h heq
        injection hr with h1 h2
        subst h1
        subst h2
        rw [heq] at hprops
        exact ⟨by simp, hprops.2.1⟩

/-- C3 amended: the writer operations preserve `validate`-ok with the
following provisos. (a) A build whose input nodes have the tree's dimension
and pairwise DISTINCT values on every axis below k validates ok (with
duplicate values on a split axis it can fail, see the counterexample).
(b) Inserting a childless node into an empty tree validates ok. (c)
Inserting any subtree into a tree whose root is valid and carries a nil
parent pointer validates ok. (d) A remove on a tree with a valid root never
panics and leaves a root that validates ok. (e) A balance validates ok
whenever the current members have the tree's dimension and pairwise
distinct values on every axis below k. (`validateOk` is the Boolean
`(*Node).validate` computes on the root; `Tree.Validate` itself panics on
an empty tree.) -/
theorem claim_C3_amended {k : Nat} (hk : 0 < k) :
    (∀ (tid : Nat) (nodes : List NodeData),
       (∀ x ∈ nodes, x.coords.length = k) →
       (∀ ax, ax < k → (nodes.map (axisKey ax)).Nodup) →
       (BuildTree tid nodes).root.validateOk = true) ∧
    (∀ (tid : Nat) (nd : NodeData),
       ((GoTree.add ⟨tid, .nil⟩ (.node nd .nil .nil)).2).root.validateOk = true) ∧
    (∀ (tid : Nat) (d : NodeData) (l r new : KD),
       Valid k (.node d l r) → d.parent = none →
       ((GoTree.add ⟨tid, .node d l r⟩ new).2).root.validateOk = true) ∧
    (∀ (t : GoTree) (n : NodeData), Valid k t.root →
       (t.removeNode n).1 ≠ some .panics ∧
       ((t.removeNode n).2).root.validateOk = true) ∧
    (∀ (t : GoTree),
       (∀ x ∈ t.root.nodeList, x.coords.length = k) →
       (∀ ax, ax < k → (t.root.nodeList.map (axisKey ax)).Nodup) →
       (t.balance).root.validateOk = true) := by
  refine ⟨?_, ?_, ?_, ?_, ?_⟩
  · intro tid nodes hdims hnd
    exact validateOk_of_valid (setTreeTag_valid tid (build_valid hk nodes 0 none hdims hnd))
  · intro tid nd
    rfl
  · intro tid d l r new hv hroot
    exact treeAdd_validateOk hk tid d l r new hv hroot
  · intro t n hv
    obtain ⟨h1, h2⟩ := removeNode_props hk t n hv
    exact ⟨h1, validateOk_of_valid h2⟩
  · intro t hdims hnd
    exact validateOk_of_valid (build_valid hk t.root.nodeList 0 none hdims hnd)

/-- C3 witness: building from two 1-D nodes with distinct keys validates
ok, and removing the root member of a concrete valid one-node tree reports
no panic and leaves a root that validates ok. -/
theorem claim_C3_witness :
    (BuildTree 0 [⟨0, 0, [5], none, none⟩, ⟨1, 0, [3], none, none⟩]).root.validateOk
      = true ∧
    ((GoTree.removeNode ⟨5, .node ⟨0, 0, [7], none, some 5⟩ .nil .nil⟩
        ⟨0, 0, [7], none, some 5⟩).1 ≠ some .panics ∧
      ((GoTree.removeNode ⟨5, .node ⟨0, 0, [7], none, some 5⟩ .nil .nil⟩
        ⟨0, 0, [7], none, some 5⟩).2).root.validateOk = true) :=
  ⟨(@claim_C3_amended 1 (by decide)).1 0 [⟨0, 0, [5], none, none⟩, ⟨1, 0, [3], none, none⟩]
      (by decide)
      (fun ax hax => by
        have h0 : ax = 0 := Nat.lt_one_iff.mp hax
        subst h0
        decide),
   (@claim_C3_amended 1 (by decide)).2.2.2.1 ⟨5, .node ⟨0, 0, [7], none, some 5⟩ .nil .nil⟩
      ⟨0, 0, [7], none, some 5⟩ (valid_leaf rfl (by decide))⟩

/-- A successful association-list lookup designates an entry of the list. -/
theorem lookup_mem {a : Int} {rg : Range} :
    ∀ {R : Ranges}, R.lookup a = some rg → (a, rg) ∈ R := by
  intro R
  induction R with
  | nil => intro h; cases h
  | cons p rest ih =>
    intro h
    obtain ⟨b, r⟩ := p
    by_cases hab : a = b
    · subst hab
      have he : List.lookup a ((a, r) :: rest) = some r := by
        simp [List.lookup]
      rw [he] at h
      injection h with h'
      subst h'
      exact List.mem_cons_self _ _
    · have hb : (a == b) = false := beq_eq_false_iff_ne.mpr hab
      have he : List.lookup a ((b, r) :: rest) = List.lookup a rest := by
        simp [List.lookup, hb]
      rw [he] at h
      exact List.mem_cons_of_mem _ (ih h)

/-- A refused left descent means the node's axis is restricted and the
restriction's min is at least the node's coordinate. -/
theorem goLeft_false_some {d : NodeData} {R : Ranges} (h : goLeft d R = false) :
    ∃ rg, R.lookup (d.axis : Int) = some rg ∧ d.coords.getD d.axis 0 ≤ rg.min := by
  unfold goLeft at h
  rcases hlk : R.lookup ((d.axis : Nat) : Int) with _ | rg
  · rw [hlk] at h
    exact Bool.noConfusion h
  · rw [hlk] at h
    exact ⟨rg, rfl, not_lt.mp (of_decide_eq_false h)⟩

/-- A refused right descent means the node's axis is restricted and the
restriction's max is below the node's coordinate. -/
theorem goRight_false_some {d : NodeData} {R : Ranges} (h : goRight d R = false) :
    ∃ rg, R.lookup (d.axis : Int) = some rg ∧ rg.max < d.coords.getD d.axis 0 := by
  unfold goRight at h
  rcases hlk : R.lookup ((d.axis : Nat) : Int) with _ | rg
  · rw [hlk] at h
    exact Bool.noConfusion h
  · rw [hlk] at h
    exact ⟨rg, rfl, not_le.mp (of_decide_eq_false h)⟩

/-- Nodes strictly below the pivot on a restricted axis whose min is at
least the pivot's coordinate all violate that restriction. -/
theorem left_filter_nil {d : NodeData} {xs : List NodeData} {R : Ranges}
    (hls : ∀ x ∈ xs, axisKey d.axis x < axisKey d.axis d)
    (hgl : goLeft d R = false) :
    xs.filter (inRanges R) = [] := by
  rw [List.filter_eq_nil_iff]
  intro x hx hxr
  obtain ⟨rg, hlk, hge⟩ := goLeft_false_some hgl
  have hmem := lookup_mem hlk
  unfold inRanges at hxr
  rw [List.all_eq_true] at hxr
  have hp := hxr _ hmem
  simp at hp
  rw [← List.getD_eq_getElem?_getD] at hp
  have h1 : x.coords.getD d.axis 0 < d.coords.getD d.axis 0 := hls x hx
  exact absurd hp.1 (not_le.mpr (lt_of_lt_of_le h1 hge))

/-- Nodes at least the pivot on a restricted axis whose max is below the
pivot's coordinate all violate that restriction. -/
theorem right_filter_nil {d : NodeData} {xs : List NodeData} {R : Ranges}
    (hrs : ∀ x ∈ xs, axisKey d.axis d ≤ axisKey d.axis x)
    (hgr : goRight d R = false) :
    xs.filter (inRanges R) = [] := by
  rw [List.filter_eq_nil_iff]
  intro x hx hxr
  obtain ⟨rg, hlk, hlt⟩ := goRight_false_some hgr
  have hmem := lookup_mem hlk
  unfold inRanges at hxr
  rw [List.all_eq_true] at hxr
  have hp := hxr _ hmem
  simp at hp
  rw [← List.getD_eq_getElem?_getD] at hp
  have h1 : d.coords.getD d.axis 0 ≤ x.coords.getD d.axis 0 := hrs x hx
  exact absurd hp.2 (not_le.mpr (lt_of_lt_of_le hlt h1))

/-- With every restriction key on an existing axis, the per-node check of
`findRange` reports no error and computes exactly the reference filter
predicate (the early break only skips checks that cannot fail). -/
theorem checkRanges_ok {k : Nat} {d : NodeData} (hd : d.coords.length = k) :
    ∀ {R : Ranges}, (∀ p ∈ R, 0 ≤ p.1 ∧ p.1 < (k : Int)) →
      checkRanges d R = .ok (inRanges R d) := by
  intro R
  induction R with
  | nil => intro _; rfl
  | cons p rest ih =>
    intro hkeys
    obtain ⟨a, r⟩ := p
    obtain ⟨ha0, hak⟩ := hkeys (a, r) (List.mem_cons_self _ _)
    have h1 : ¬((d.coords.length : Int) ≤ a) := by
      rw [hd]
      exact not_le.mpr hak
    have h2 : ¬(a < 0) := not_lt.mpr ha0
    unfold checkRanges
    rw [if_neg h1, if_neg h2]
    by_cases hviol : (d.coords.getD a.toNat 0 < r.min || d.coords.getD a.toNat 0 > r.max) = true
    · rw [if_pos hviol]
      have hfalse : inRanges ((a, r) :: rest) d = false := by
        simp only [inRanges, List.all_cons]
        rw [hviol]
        rfl
      rw [hfalse]
    · have hsame : inRanges ((a, r) :: rest) d = inRanges rest d := by
        simp only [inRanges, List.all_cons]
        rw [Bool.not_eq_true] at hviol
        rw [hviol]
        rfl
      rw [if_neg hviol, ih (fun q hq => hkeys q (List.mem_cons_of_mem _ hq)), hsame]

/-- The reference scan's per-node check agrees with `inRanges` as well
(no break, same checks). -/
theorem checkRangesAll_ok {k : Nat} {d : NodeData} (hd : d.coords.length = k) :
    ∀ {R : Ranges}, (∀ p ∈ R, 0 ≤ p.1 ∧ p.1 < (k : Int)) →
      checkRangesAll d R = .ok (inRanges R d) := by
  intro R
  induction R with
  | nil => intro _; rfl
  | cons p rest ih =>
    intro hkeys
    obtain ⟨a, r⟩ := p
    obtain ⟨ha0, hak⟩ := hkeys (a, r) (List.mem_cons_self _ _)
    have h1 : ¬((d.coords.length : Int) ≤ a) := by
      rw [hd]
      exact not_le.mpr hak
    have h2 : ¬(a < 0) := not_lt.mpr ha0
    unfold checkRangesAll
    rw [if_neg h1, if_neg h2, ih (fun q hq => hkeys q (List.mem_cons_of_mem _ hq))]
    rfl

/-- The reference list scan returns exactly the filtered node list and no
error when every key is a real axis. -/
theorem findrangeList_ok {k : Nat} {R : Ranges}
    (hkeys : ∀ p ∈ R, 0 ≤ p.1 ∧ p.1 < (k : Int)) :
    ∀ {nodes : List NodeData}, (∀ x ∈ nodes, x.coords.length = k) →
      findrangeList nodes R = (nodes.filter (inRanges R), none) := by
  intro nodes
  induction nodes with
  | nil => intro _; rfl
  | cons n rest ih =>
    intro hdims
    unfold findrangeList
    rw [checkRangesAll_ok (hdims n (List.mem_cons_self _ _)) hkeys,
        ih (fun x hx => hdims x (List.mem_cons_of_mem _ hx))]
    by_cases hadd : inRanges R n
    · simp [List.filter_cons, hadd]
    · simp [List.filter_cons, hadd]

/-- Evaluation of `findRange` at a node when both recursive calls return
without error: the node (if it passes), then the left results (if the
search descends left), then the right results (if it descends right). -/
theorem fr_node_eval {d : NodeData} {R : Ranges} {l r : KD} {add : Bool}
    {lres rres : List NodeData}
    (hc : checkRanges d R = .ok add)
    (hl : l.findRange R = (lres, none)) (hr : r.findRange R = (rres, none)) :
    KD.findRange (.node d l r) R
      = ((if add then [d] else []) ++ (if goLeft d R then lres else [])
          ++ (if goRight d R then rres else []), none) := by
  conv_lhs => unfold KD.findRange
  rw [hc]
  show (if goLeft d R then
          match l.findRange R with
          | (_, some e) => ((if add then [d] else []), some e)
          | (lres2, none) =>
            if goRight d R then
              match r.findRange R with
              | (_, some e) => ((if add then [d] else []) ++ lres2, some e)
              | (rres2, none) => ((if add then [d] else []) ++ lres2 ++ rres2, none)
            else ((if add then [d] else []) ++ lres2, none)
        else
          if goRight d R then
            match r.findRange R with
            | (_, some e) => ((if add then [d] else []), some e)
            | (rres2, none) => ((if add then [d] else []) ++ rres2, none)
          else ((if add then [d] else []), none))
      = ((if add then [d] else []) ++ (if goLeft d R then lres else [])
          ++ (if goRight d R then rres else []), none)
  by_cases hgl : goLeft d R
  · rw [if_pos hgl, hl]
    show (if goRight d R then
            match r.findRange R with
            | (_, some e) => ((if add then [d] else []) ++ lres, some e)
            | (rres2, none) => ((if add then [d] else []) ++ lres ++ rres2, none)
          else ((if add then [d] else []) ++ lres, none))
        = ((if add then [d] else []) ++ (if goLeft d R then lres else [])
            ++ (if goRight d R then rres else []), none)
    by_cases hgr : goRight d R
    · rw [if_pos hgr, hr]
      show ((if add then [d] else []) ++ lres ++ rres, none)
          = ((if add then [d] else []) ++ (if goLeft d R then lres else [])
              ++ (if goRight d R then rres else []), none)
      rw [if_pos hgl, if_pos hgr]
    · rw [if_neg hgr]
      rw [if_pos hgl]
      rw [if_neg hgr]
      rw [List.append_nil]
  · rw [if_neg hgl]
    show (if goRight d R then
            match r.findRange R with
            | (_, some e) => ((if add then [d] else []), some e)
            | (rres2, none) => ((if add then [d] else []) ++ rres2, none)
          else ((if add then [d] else []), none))
        = ((if add then [d] else []) ++ (if goLeft d R then lres else [])
            ++ (if goRight d R then rres else []), none)
    by_cases hgr : goRight d R
    · rw [if_pos hgr, hr]
      show ((if add then [d] else []) ++ rres, none)
          = ((if add then [d] else []) ++ (if goLeft d R then lres else [])
              ++ (if goRight d R then rres else []), none)
      rw [if_neg hgl]
      rw [if_pos hgr]
      rw [List.append_nil]
    · rw [if_neg hgr]
      rw [if_neg hgl]
      rw [if_neg hgr]
      rw [List.append_nil, List.append_nil]

/-- Rotating the pivot's contribution from the front to the back of an
append, componentwise up to permutation. -/
theorem perm_front_back {l r l2 r2 : List NodeData} (a : List NodeData)
    (hl : l.Perm l2) (hr : r.Perm r2) : (a ++ l ++ r).Perm (l2 ++ r2 ++ a) := by
  rw [List.append_assoc a l r]
  exact List.perm_append_comm.trans ((hl.append hr).append_right a)

/-- On a subtree satisfying the structural invariant and a restriction map
whose keys are real axes, `findRange` reports no error and returns exactly
the members passing every restriction, up to order: pruned subtrees contain
no passing node (split invariant), everything else is visited. -/
theorem findRange_perm {k : Nat} {R : Ranges}
    (hkeys : ∀ p ∈ R, 0 ≤ p.1 ∧ p.1 < (k : Int)) :
    ∀ t : KD, Valid k t →
      (t.findRange R).2 = none ∧
      (t.findRange R).1.Perm (t.nodeList.filter (inRanges R)) := by
  intro t
  induction t with
  | nil =>
    intro _
    exact ⟨rfl, List.Perm.refl []⟩
  | node d l r ihl ihr =>
    intro hv
    obtain ⟨hdims, hax, hls, hrs, hlm, hrm, hvl, hvr⟩ := id hv
    have hc : checkRanges d R = .ok (inRanges R d) := checkRanges_ok hdims hkeys
    rcases hfl : l.findRange R with ⟨lres, le⟩
    rcases hfr : r.findRange R with ⟨rres, re⟩
    obtain ⟨hle, hlp⟩ := ihl hvl
    obtain ⟨hre, hrp⟩ := ihr hvr
    rw [hfl] at hle hlp
    rw [hfr] at hre hrp
    have hle' : le = none := hle
    have hre' : re = none := hre
    subst hle'
    subst hre'
    have hlp' : lres.Perm (l.nodeList.filter (inRanges R)) := hlp
    have hrp' : rres.Perm (r.nodeList.filter (inRanges R)) := hrp
    rw [fr_node_eval hc hfl hfr]
    refine ⟨rfl, ?_⟩
    show ((if inRanges R d then [d] else []) ++ (if goLeft d R then lres else [])
        ++ (if goRight d R then rres else [])).Perm
      ((KD.node d l r).nodeList.filter (inRanges R))
    rw [nodeList_node, List.filter_append, List.filter_append]
    have hsing : List.filter (inRanges R) [d] = if inRanges R d then [d] else [] := by
      by_cases hadd : inRanges R d
      · simp [List.filter_cons, hadd]
      · simp [List.filter_cons, hadd]
    rw [hsing]
    have hLperm : (if goLeft d R then lres else []).Perm
        (l.nodeList.filter (inRanges R)) := by
      by_cases hgl : goLeft d R
      · rw [if_pos hgl]
        exact hlp'
      · rw [if_neg hgl, left_filter_nil hls (Bool.eq_false_iff.mpr hgl)]
    have hRperm : (if goRight d R then rres else []).Perm
        (r.nodeList.filter (inRanges R)) := by
      by_cases hgr : goRight d R
      · rw [if_pos hgr]
        exact hrp'
      · rw [if_neg hgr, right_filter_nil hrs (Bool.eq_false_iff.mpr hgr)]
    exact perm_front_back _ hLperm hRperm

/-- C2: on every tree satisfying the structural invariants, for every
restriction map whose keys all lie in [0, k), `find_range` reports no
error, the list-scan reference `findrange` over `node_list` returns the
filter of the node list (also without error), and the two result lists
agree as sets (they are permutations of one another). -/
theorem claim_C2 {k : Nat} (t : GoTree) (R : Ranges) (hv : Valid k t.root)
    (hkeys : ∀ p ∈ R, 0 ≤ p.1 ∧ p.1 < (k : Int)) :
    (t.findRange R).2 = none ∧
    findrangeList t.root.nodeList R = (t.root.nodeList.filter (inRanges R), none) ∧
    (t.findRange R).1.Perm ((findrangeList t.root.nodeList R).1) := by
  have hfr := findRange_perm hkeys t.root hv
  have hfl := findrangeList_ok hkeys (valid_allDims hv)
  refine ⟨hfr.1, hfl, ?_⟩
  rw [hfl]
  exact hfr.2

/-- C2 witness: a valid one-node 1-D tree and the restriction 0 <= x <= 9
on axis 0. -/
theorem claim_C2_witness :
    (GoTree.findRange ⟨0, .node ⟨1, 0, [5], none, none⟩ .nil .nil⟩ [(0, ⟨0, 9⟩)]).2
        = none ∧
    findrangeList (KD.node ⟨1, 0, [5], none, none⟩ .nil .nil).nodeList [(0, ⟨0, 9⟩)]
        = ((KD.node ⟨1, 0, [5], none, none⟩ .nil .nil).nodeList.filter
            (inRanges [(0, ⟨0, 9⟩)]), none) ∧
    (GoTree.findRange ⟨0, .node ⟨1, 0, [5], none, none⟩ .nil .nil⟩ [(0, ⟨0, 9⟩)]).1.Perm
        ((findrangeList (KD.node ⟨1, 0, [5], none, none⟩ .nil .nil).nodeList
          [(0, ⟨0, 9⟩)]).1) :=
  @claim_C2 1 ⟨0, .node ⟨1, 0, [5], none, none⟩ .nil .nil⟩ [(0, ⟨0, 9⟩)]
    (valid_leaf rfl (by decide)) (by decide)

end Kdtree
